import Mathlib

/-!
Verification development for the `ya-whatsminer-cli` core
(`whatsminer_cli/core.py`): token derivation, payload encryption,
request building and the TCP receive path.

Modelling conventions:
* Byte strings are `List Nat` (each element morally `< 256`); 32-bit words
  are `Nat` reduced modulo `2 ^ 32` wherever the machine arithmetic wraps.
* `hashlib.sha256` is embedded as an executable SHA-256 over byte lists.
* The AES primitive comes from an external library (pycryptodome); the
  code only composes it blockwise in ECB mode, so the development is
  parameterised by an arbitrary block-cipher pair `(enc, dec)`.
* `json.dumps(obj, separators=(",", ":"), ensure_ascii=False)` and
  `json.loads` are embedded as an executable compact serializer and a
  recursive-descent parser over a JSON value type.
* The TCP socket is modelled as the list of bytes the peer delivers before
  EOF together with a `sched`ule of chunk sizes successive `recv` calls
  return, so short reads and EOF are represented faithfully.
-/

/-- Reduce modulo `2 ^ 32`: models 32-bit machine arithmetic. -/
def w32 (n : Nat) : Nat := n % 4294967296

/-- 32-bit right rotation. -/
def rotr32 (n x : Nat) : Nat := w32 ((x >>> n) ||| (x <<< (32 - n)))

/-- 32-bit bitwise complement. -/
def not32 (x : Nat) : Nat := Nat.xor x 4294967295

/-- The SHA-256 round constants. -/
def sha256K : List Nat :=
  [1116352408, 1899447441, 3049323471, 3921009573, 961987163,
   1508970993, 2453635748, 2870763221, 3624381080, 310598401,
   607225278, 1426881987, 1925078388, 2162078206, 2614888103,
   3248222580, 3835390401, 4022224774, 264347078, 604807628,
   770255983, 1249150122, 1555081692, 1996064986, 2554220882,
   2821834349, 2952996808, 3210313671, 3336571891, 3584528711,
   113926993, 338241895, 666307205, 773529912, 1294757372,
   1396182291, 1695183700, 1986661051, 2177026350, 2456956037,
   2730485921, 2820302411, 3259730800, 3345764771, 3516065817,
   3600352804, 4094571909, 275423344, 430227734, 506948616,
   659060556, 883997877, 958139571, 1322822218, 1537002063,
   1747873779, 1955562222, 2024104815, 2227730452, 2361852424,
   2428436474, 2756734187, 3204031479, 3329325298]

/-- The eight 32-bit words of SHA-256 working state. -/
structure Hash8 where
  a : Nat
  b : Nat
  c : Nat
  d : Nat
  e : Nat
  f : Nat
  g : Nat
  h : Nat

/-- SHA-256 initial hash value. -/
def sha256Init : Hash8 :=
  ⟨1779033703, 3144134277, 1013904242, 2773480762,
   1359893119, 2600822924, 528734635, 1541459225⟩

/-- SHA-256 `Σ0`. -/
def bigSigma0 (x : Nat) : Nat := rotr32 2 x ^^^ rotr32 13 x ^^^ rotr32 22 x

/-- SHA-256 `Σ1`. -/
def bigSigma1 (x : Nat) : Nat := rotr32 6 x ^^^ rotr32 11 x ^^^ rotr32 25 x

/-- SHA-256 `σ0`. -/
def smallSigma0 (x : Nat) : Nat := rotr32 7 x ^^^ rotr32 18 x ^^^ (x >>> 3)

/-- SHA-256 `σ1`. -/
def smallSigma1 (x : Nat) : Nat := rotr32 17 x ^^^ rotr32 19 x ^^^ (x >>> 10)

/-- SHA-256 `Ch`. -/
def shaCh (x y z : Nat) : Nat := (x &&& y) ^^^ (not32 x &&& z)

/-- SHA-256 `Maj`. -/
def shaMaj (x y z : Nat) : Nat := (x &&& y) ^^^ (x &&& z) ^^^ (y &&& z)

/-- One step of the SHA-256 message-schedule extension: append the next word. -/
def scheduleStep (ws : List Nat) : List Nat :=
  let n := ws.length
  ws ++ [w32 (smallSigma1 (ws.getD (n - 2) 0) + ws.getD (n - 7) 0 +
              smallSigma0 (ws.getD (n - 15) 0) + ws.getD (n - 16) 0)]

/-- Extend the schedule by `k` words. -/
def schedule (ws : List Nat) : Nat → List Nat
  | 0 => ws
  | k + 1 => schedule (scheduleStep ws) k

/-- One SHA-256 compression round; `kw` is the round constant plus schedule word. -/
def sha256Round (st : Hash8) (kw : Nat) : Hash8 :=
  let t1 := w32 (st.h + bigSigma1 st.e + shaCh st.e st.f st.g + kw)
  let t2 := w32 (bigSigma0 st.a + shaMaj st.a st.b st.c)
  ⟨w32 (t1 + t2), st.a, st.b, st.c, w32 (st.d + t1), st.e, st.f, st.g⟩

/-- Compress one 16-word block into the state. -/
def compressBlock (st : Hash8) (block16 : List Nat) : Hash8 :=
  let ws := schedule block16 48
  let st2 := (List.zipWith (fun k w => w32 (k + w)) sha256K ws).foldl sha256Round st
  ⟨w32 (st.a + st2.a), w32 (st.b + st2.b), w32 (st.c + st2.c), w32 (st.d + st2.d),
   w32 (st.e + st2.e), w32 (st.f + st2.f), w32 (st.g + st2.g), w32 (st.h + st2.h)⟩

/-- Big-endian bytes of `n`, `k` bytes wide. -/
def natToBytesBE : Nat → Nat → List Nat
  | 0, _ => []
  | k + 1, n => natToBytesBE k (n / 256) ++ [n % 256]

/-- The four big-endian bytes of a 32-bit word. -/
def wordBytesBE (w : Nat) : List Nat :=
  [w / 16777216 % 256, w / 65536 % 256, w / 256 % 256, w % 256]

/-- Group bytes into 32-bit big-endian words. -/
def bytesToWords : List Nat → List Nat
  | b0 :: b1 :: b2 :: b3 :: rest =>
      (((b0 * 256 + b1) * 256 + b2) * 256 + b3) :: bytesToWords rest
  | _ => []

/-- SHA-256 padding: `0x80`, zeros to 56 mod 64, 8-byte big-endian bit length. -/
def sha256Pad (msg : List Nat) : List Nat :=
  let len := msg.length
  let padZeros := (119 - len % 64) % 64
  msg ++ [0x80] ++ List.replicate padZeros 0 ++ natToBytesBE 8 (len * 8)

/-- Split a byte list into 64-byte blocks. -/
def chunks64 : List Nat → List (List Nat)
  | [] => []
  | b :: l => (b :: l).take 64 :: chunks64 ((b :: l).drop 64)
termination_by l => l.length
decreasing_by simp [List.length_drop]; omega

/-- SHA-256 of a byte list: the 32-byte digest. Embeds `hashlib.sha256(...).digest()`. -/
def sha256 (msg : List Nat) : List Nat :=
  let padded := sha256Pad msg
  let final := (chunks64 padded).foldl
    (fun st b => compressBlock st (bytesToWords b)) sha256Init
  wordBytesBE final.a ++ wordBytesBE final.b ++ wordBytesBE final.c ++ wordBytesBE final.d ++
  wordBytesBE final.e ++ wordBytesBE final.f ++ wordBytesBE final.g ++ wordBytesBE final.h

/-- UTF-8 encoding of one character.  The bit operations are expressed
with division and remainder: for code point `n`, `n >> 6 = n / 64`,
`n & 63 = n % 64`, and or-ing the lead-byte marker onto the disjoint low
bits is addition. -/
def utf8EncodeChar (c : Char) : List Nat :=
  let n := c.toNat
  if n < 128 then [n]
  else if n < 2048 then [192 + n / 64, 128 + n % 64]
  else if n < 65536 then
    [224 + n / 4096, 128 + n / 64 % 64, 128 + n % 64]
  else
    [240 + n / 262144, 128 + n / 4096 % 64, 128 + n / 64 % 64, 128 + n % 64]

/-- UTF-8 encoding of a string, as a byte list. Embeds `s.encode("utf-8")`. -/
def utf8Encode (s : String) : List Nat := (s.data.map utf8EncodeChar).flatten

/-- Embeds `sha256_digest_bytes` from `core.py`: SHA-256 of the UTF-8 bytes of `s`. -/
def sha256_digest_bytes (s : String) : List Nat := sha256 (utf8Encode s)

/-- The standard base64 alphabet. -/
def b64Alphabet : List Char :=
  "ABCDEFGHIJKLMNOPQRSTUVWXYZabcdefghijklmnopqrstuvwxyz0123456789+/".data

/-- The base64 character of a 6-bit index. -/
def b64Char (i : Nat) : Char := b64Alphabet.getD (i % 64) 'A'

/-- Base64 encoding of a byte list as characters, with `=` padding.
The 6-bit groups are expressed with division and remainder (for a byte
`b`, `b / 4 = b >> 2`, `b % 4 = b & 3`, and so on). -/
def b64EncodeBytes : List Nat → List Char
  | [] => []
  | [b1] => [b64Char (b1 / 4), b64Char (b1 % 4 * 16), '=', '=']
  | [b1, b2] =>
      [b64Char (b1 / 4), b64Char (b1 % 4 * 16 + b2 / 16), b64Char (b2 % 16 * 4), '=']
  | b1 :: b2 :: b3 :: rest =>
      b64Char (b1 / 4) :: b64Char (b1 % 4 * 16 + b2 / 16) ::
      b64Char (b2 % 16 * 4 + b3 / 64) :: b64Char (b3 % 64) ::
      b64EncodeBytes rest

/-- Embeds `base64.b64encode(...).decode("ascii")`. -/
def base64Encode (bs : List Nat) : String := ⟨b64EncodeBytes bs⟩

/--
Embeds `generate_token` from `core.py`:
`digest = sha256(cmd + password + salt + str(ts))`, `token = base64(digest)[:8]`.
-/
def generate_token (cmd account_password salt : String) (ts : Int) : String × List Nat :=
  let concat := cmd ++ account_password ++ salt ++ toString ts
  let digest := sha256_digest_bytes concat
  let b64 := base64Encode digest
  let token : String := ⟨b64.data.take 8⟩
  (token, digest)

/-- JSON values as handled by the code: Python objects serialized with
`json.dumps`. Numbers are modelled as integers (the client never builds
float parameters through this path; floating point is outside the
embedding). Objects are ordered key/value lists, matching Python dict
insertion order. -/
inductive Json where
  | null
  | bool (b : Bool)
  | num (n : Int)
  | str (s : String)
  | arr (xs : List Json)
  | obj (members : List (String × Json))
deriving Repr

/-- Opening brace character. -/
def lbrace : Char := Char.ofNat 123

/-- Closing brace character. -/
def rbrace : Char := Char.ofNat 125

/-- Lowercase hexadecimal digit character. -/
def toHexChar (d : Nat) : Char := "0123456789abcdef".data.getD (d % 16) '0'

/-- JSON string escaping of one character, as `json.dumps` with
`ensure_ascii=False` performs it: escape the quote, the backslash and
control characters (with short escapes for the usual ones), pass
everything else through literally. -/
def escapeChar (c : Char) : List Char :=
  if c = '"' ∨ c = '\\' then ['\\', c]
  else if 32 ≤ c.toNat then [c]
  else if c = Char.ofNat 8 then ['\\', 'b']
  else if c = Char.ofNat 9 then ['\\', 't']
  else if c = Char.ofNat 10 then ['\\', 'n']
  else if c = Char.ofNat 12 then ['\\', 'f']
  else if c = Char.ofNat 13 then ['\\', 'r']
  else ['\\', 'u', '0', '0', toHexChar (c.toNat / 16), toHexChar (c.toNat % 16)]

/-- The serialized form of a JSON string: quote, escaped body, quote. -/
def serStringChars (s : String) : List Char :=
  '"' :: (s.data.map escapeChar).flatten ++ ['"']

/-- Decimal digit characters of a natural number (big-endian). -/
def natChars (n : Nat) : List Char :=
  if n = 0 then ['0']
  else (Nat.digits 10 n).reverse.map (fun d => Char.ofNat (48 + d))

/-- Decimal characters of an integer, with a leading minus when negative. -/
def intChars (n : Int) : List Char :=
  if n < 0 then '-' :: natChars n.natAbs else natChars n.toNat

mutual

/-- Compact JSON serialization, embedding
`json.dumps(obj, separators=(",", ":"), ensure_ascii=False)`. -/
def dumpsVal : Json → List Char
  | .num n => intChars n
  | .bool b => if b then ['t', 'r', 'u', 'e'] else ['f', 'a', 'l', 's', 'e']
  | .null => ['n', 'u', 'l', 'l']
  | .str s => serStringChars s
  | .arr xs => '[' :: dumpsArr xs ++ [']']
  | .obj ms => lbrace :: dumpsObj ms ++ [rbrace]

/-- Comma-separated serialization of array elements. -/
def dumpsArr : List Json → List Char
  | [] => []
  | [x] => dumpsVal x
  | x :: y :: rest => dumpsVal x ++ ',' :: dumpsArr (y :: rest)

/-- Comma-separated serialization of object members (`"key":value`). -/
def dumpsObj : List (String × Json) → List Char
  | [] => []
  | [(k, v)] => serStringChars k ++ ':' :: dumpsVal v
  | (k, v) :: m :: rest => serStringChars k ++ ':' :: dumpsVal v ++ ',' :: dumpsObj (m :: rest)

end

/-- Compact JSON serialization as a string. -/
def dumps (v : Json) : String := ⟨dumpsVal v⟩

/-- Hexadecimal digit value of a character. -/
def hexVal (c : Char) : Option Nat :=
  let n := c.toNat
  if 48 ≤ n ∧ n ≤ 57 then some (n - 48)
  else if 97 ≤ n ∧ n ≤ 102 then some (n - 87)
  else if 65 ≤ n ∧ n ≤ 70 then some (n - 55)
  else none

/-- Value of a JSON short escape character. -/
def unescapeChar : Char → Option Char
  | '"' => some '"'
  | '\\' => some '\\'
  | '/' => some '/'
  | 'b' => some (Char.ofNat 8)
  | 'f' => some (Char.ofNat 12)
  | 'n' => some (Char.ofNat 10)
  | 'r' => some (Char.ofNat 13)
  | 't' => some (Char.ofNat 9)
  | _ => none

/-- Parse a JSON string body up to the unescaped closing quote, decoding
escapes; returns the decoded characters and the remaining input. -/
def parseStringBody : List Char → Option (List Char × List Char)
  | [] => none
  | c :: rest =>
    if c = '"' then some ([], rest)
    else if c = '\\' then
      match rest with
      | [] => none
      | e :: rest2 =>
        if e = 'u' then
          match rest2 with
          | h1 :: h2 :: h3 :: h4 :: rest3 =>
            match hexVal h1, hexVal h2, hexVal h3, hexVal h4 with
            | some d1, some d2, some d3, some d4 =>
              let n := ((d1 * 16 + d2) * 16 + d3) * 16 + d4
              if n < 55296 ∨ 57343 < n then
                (fun p => (Char.ofNat n :: p.1, p.2)) <$> parseStringBody rest3
              else none
            | _, _, _, _ => none
          | _ => none
        else
          match unescapeChar e with
          | some c2 => (fun p => (c2 :: p.1, p.2)) <$> parseStringBody rest2
          | none => none
    else (fun p => (c :: p.1, p.2)) <$> parseStringBody rest

/-- Decimal digit test. -/
def isDigitChar (c : Char) : Bool := 48 ≤ c.toNat && c.toNat ≤ 57

/-- Parse a nonempty run of decimal digits into a natural number. -/
def parseNatChars (xs : List Char) : Option (Nat × List Char) :=
  let ds := xs.takeWhile isDigitChar
  if ds.isEmpty then none
  else some (ds.foldl (fun a c => a * 10 + (c.toNat - 48)) 0, xs.dropWhile isDigitChar)

mutual

/-- Recursive-descent JSON parser (fuelled), embedding `json.loads` on the
compact-serialization fragment the client emits: values, arrays, objects,
strings with escapes, integer numbers. -/
def parseVal : Nat → List Char → Option (Json × List Char)
  | 0, _ => none
  | fuel + 1, input =>
    match input with
    | [] => none
    | c :: rest =>
      if c = 'n' then
        match rest with
        | 'u' :: 'l' :: 'l' :: r => some (.null, r)
        | _ => none
      else if c = 't' then
        match rest with
        | 'r' :: 'u' :: 'e' :: r => some (.bool true, r)
        | _ => none
      else if c = 'f' then
        match rest with
        | 'a' :: 'l' :: 's' :: 'e' :: r => some (.bool false, r)
        | _ => none
      else if c = '"' then (fun p => (Json.str ⟨p.1⟩, p.2)) <$> parseStringBody rest
      else if c = '-' then (fun p => (Json.num (-(p.1 : Int)), p.2)) <$> parseNatChars rest
      else if c = '[' then
        if rest.head? = some ']' then some (.arr [], rest.tail)
        else (fun p => (Json.arr p.1, p.2)) <$> parseElems fuel rest
      else if isDigitChar c then
        (fun p => (Json.num (p.1 : Int), p.2)) <$> parseNatChars (c :: rest)
      else if c = lbrace then
        if rest.head? = some rbrace then some (.obj [], rest.tail)
        else (fun p => (Json.obj p.1, p.2)) <$> parseMembers fuel rest
      else none

/-- Parse one or more comma-separated array elements and the closing
bracket. -/
def parseElems : Nat → List Char → Option (List Json × List Char)
  | 0, _ => none
  | fuel + 1, xs => do
    let p ← parseVal fuel xs
    match p.2 with
    | ',' :: r2 => (fun q => (p.1 :: q.1, q.2)) <$> parseElems fuel r2
    | ']' :: r2 => some ([p.1], r2)
    | _ => none

/-- Parse one or more comma-separated `"key":value` members and the
closing brace. -/
def parseMembers : Nat → List Char → Option (List (String × Json) × List Char)
  | 0, _ => none
  | fuel + 1, xs =>
    match xs with
    | '"' :: rest => do
      let kp ← parseStringBody rest
      match kp.2 with
      | ':' :: r2 => do
        let vp ← parseVal fuel r2
        match vp.2 with
        | ',' :: r4 =>
            (fun q => ((⟨kp.1⟩, vp.1) :: q.1, q.2)) <$> parseMembers fuel r4
        | r5 :: r6 =>
            if r5 = rbrace then some ([(⟨kp.1⟩, vp.1)], r6) else none
        | [] => none
      | _ => none
    | _ => none

end

/-- Embeds `json.loads` on whole inputs: parse a value consuming the entire
string. -/
def parseJson (s : String) : Option Json :=
  match parseVal (s.data.length + 1) s.data with
  | some (v, []) => some v
  | _ => none

/-- Index of a character in the base64 alphabet. -/
def b64CharVal (c : Char) : Option Nat := b64Alphabet.indexOf? c

/-- Base64 decoding of characters back to bytes (inverse of
`b64EncodeBytes` on its outputs). -/
def b64DecodeChars : List Char → Option (List Nat)
  | [] => some []
  | c1 :: c2 :: c3 :: c4 :: rest =>
    match b64CharVal c1, b64CharVal c2 with
    | some d1, some d2 =>
      if c3 = '=' ∧ c4 = '=' ∧ rest = [] then some [d1 * 4 + d2 / 16]
      else
        match b64CharVal c3 with
        | some d3 =>
          if c4 = '=' ∧ rest = [] then some [d1 * 4 + d2 / 16, d2 % 16 * 16 + d3 / 4]
          else
            match b64CharVal c4, b64DecodeChars rest with
            | some d4, some bs =>
                some ((d1 * 4 + d2 / 16) :: (d2 % 16 * 16 + d3 / 4) :: (d3 % 4 * 64 + d4) :: bs)
            | _, _ => none
        | none => none
    | _, _ => none
  | _ => none

/-- Embeds `base64.b64decode` on the strings this client produces. -/
def base64Decode (s : String) : Option (List Nat) := b64DecodeChars s.data

/-- Embeds `pkcs7_pad` from `core.py`: append `pad_len` copies of the byte
`pad_len`, where `pad_len = block_size - len % block_size`. -/
def pkcs7_pad (data : List Nat) (block_size : Nat) : List Nat :=
  let pad_len := block_size - data.length % block_size
  data ++ List.replicate pad_len pad_len

/-- Strip PKCS#7 padding (the reverse operation, block size 16): the last
byte is the pad length; check it and drop that many trailing bytes. -/
def pkcs7Unpad (data : List Nat) : Option (List Nat) :=
  match data.getLast? with
  | none => none
  | some p =>
    if 1 ≤ p ∧ p ≤ 16 ∧ p ≤ data.length ∧ (data.drop (data.length - p)).all (fun b => b == p) then
      some (data.take (data.length - p))
    else none

/-- Split into 16-byte blocks. -/
def chunks16 : List Nat → List (List Nat)
  | [] => []
  | b :: l => (b :: l).take 16 :: chunks16 ((b :: l).drop 16)
termination_by l => l.length
decreasing_by simp [List.length_drop]; omega

/-- ECB mode: apply the block function to each 16-byte block independently
and concatenate. Models `AES.new(key, AES.MODE_ECB).encrypt` (and
`.decrypt`) of the external crypto library, for an abstract block
function. -/
def ecbApply (f : List Nat → List Nat) (l : List Nat) : List Nat :=
  ((chunks16 l).map f).flatten

/--
Embeds `encrypt_param_aes_ecb_base64` from `core.py`, parameterised by the
keyed AES block encryption `enc` of the external crypto library: serialize
to compact JSON, UTF-8 encode, PKCS#7 pad to 16 bytes, encrypt blockwise
in ECB mode, base64 encode.
-/
def encrypt_param_aes_ecb_base64 (enc : List Nat → List Nat) (param_obj : Json) : String :=
  let json_str := dumps param_obj
  let data := utf8Encode json_str
  let padded := pkcs7_pad data 16
  let ct := ecbApply enc padded
  base64Encode ct

/-- Embeds Python string `startswith`: prefix test on the character
sequence. -/
def strStartsWith (s p : String) : Bool := p.data.isPrefixOf s.data

/-- The wire request assembled by `call_whatsminer`: `cmd` plus the
optional `ts`/`token`/`account`/`param` keys.  A `none` field is an absent
key of the Python dict. -/
structure Request where
  cmd : String
  ts : Option Int
  token : Option String
  account : Option String
  param : Option Json
deriving Repr

/-- Embeds `_ENCRYPTED_COMMANDS` from `core.py`. -/
def _ENCRYPTED_COMMANDS : List String := ["set.miner.pools", "set.user.change_passwd"]

/--
Embeds the validation and request-assembly part of `call_whatsminer`
(`core.py`), everything before the handoff to `send_request_and_receive`.
`now` stands for `now_ts_int()` (the current unix time in seconds), and
`aesEnc key` is the AES-ECB block encryption of the external library keyed
by `key`.  `.error` is a raised `ValueError`.
-/
def buildRequest (aesEnc : List Nat → List Nat → List Nat) (now : Int)
    (account account_password cmd : String)
    (param : Option Json) (salt : Option String) (ts : Option Int) :
    Except String Request :=
  let request : Request := ⟨cmd, none, none, none, none⟩
  let is_set_cmd := strStartsWith cmd "set."
  let ts_val : Option Int := match ts with
    | some t => some t
    | none => if is_set_cmd then some now else none
  if is_set_cmd then
    match salt with
    | none => .error "Salt is required for set.x commands. Obtain it via get.device.info."
    | some s =>
      let tok := generate_token cmd account_password s (ts_val.getD now)
      let request := { request with ts := ts_val, token := some tok.1, account := some account }
      if cmd ∈ _ENCRYPTED_COMMANDS then
        match param with
        | none => .error ("Command " ++ cmd ++ " requires param.")
        | some p =>
            .ok { request with
                  param := some (.str (encrypt_param_aes_ecb_base64 (aesEnc tok.2) p)) }
      else
        match param with
        | some p => .ok { request with param := some p }
        | none => .ok request
  else
    match param with
    | some p => .ok { request with param := some p }
    | none => .ok request

/-- Embeds `call_whatsminer` (`core.py`): build and validate the request,
then hand it to the transport (`send_request_and_receive`), whose
behaviour is abstracted as the function `transport`. -/
def call_whatsminer (aesEnc : List Nat → List Nat → List Nat) (now : Int)
    (transport : String → Nat → Request → Nat → Json)
    (host : String) (port : Nat) (account account_password cmd : String)
    (param : Option Json) (salt : Option String) (ts : Option Int) (timeout : Nat) :
    Except String Json :=
  (buildRequest aesEnc now account account_password cmd param salt ts).map
    (fun request => transport host port request timeout)

/-- Embeds `recvall`'s accumulation loop.  `stream` is the byte sequence
the peer delivers before EOF; `sched` schedules how many bytes each
successive `recv` call yields (a blocking `recv` returns between 1 and the
requested number of bytes, or nothing at EOF).  Returns the accumulated
bytes together with the unconsumed stream and schedule, or `none` when EOF
is hit first. -/
def recvallAux (n : Nat) : List Nat → List Nat → List Nat → Option (List Nat × List Nat × List Nat)
  | acc, sched, stream =>
    if n ≤ acc.length then some (acc, stream, sched)
    else
      match stream with
      | [] => none
      | s :: srest =>
        let want := n - acc.length
        let k := min (max (sched.headD want) 1) want
        recvallAux n (acc ++ (s :: srest).take k) sched.tail ((s :: srest).drop k)
termination_by _ _ stream => stream.length
decreasing_by simp [List.length_drop]; omega

/-- Embeds `recvall` from `core.py`: receive exactly `n` bytes or fail at
EOF. -/
def recvall (sched : List Nat) (stream : List Nat) (n : Nat) :
    Option (List Nat × List Nat × List Nat) :=
  recvallAux n [] sched stream

/-- Little-endian 4-byte encoding of a length, embedding
`struct.pack("<I", n)`. -/
def leBytes4 (n : Nat) : List Nat :=
  [n % 256, n / 256 % 256, n / 65536 % 256, n / 16777216 % 256]

/-- Embeds `s.encode("ascii", errors="ignore")`: drop non-ASCII characters. -/
def asciiEncodeIgnore (s : String) : List Nat :=
  (s.data.filter (fun c => c.toNat < 128)).map Char.toNat

/-- Fuelled worker for `utf8DecodeIgnore`; the fuel (an upper bound on the
input length) only forces termination and is never exhausted. -/
def utf8DecodeIgnoreAux : Nat → List Nat → List Char
  | 0, _ => []
  | _ + 1, [] => []
  | fuel + 1, b :: rest =>
    if b < 128 then Char.ofNat b :: utf8DecodeIgnoreAux fuel rest
    else if 194 ≤ b ∧ b ≤ 223 then
      match rest with
      | b2 :: rest2 =>
        if 128 ≤ b2 ∧ b2 ≤ 191 then
          Char.ofNat ((b - 192) * 64 + (b2 - 128)) :: utf8DecodeIgnoreAux fuel rest2
        else utf8DecodeIgnoreAux fuel rest
      | [] => []
    else if 224 ≤ b ∧ b ≤ 239 then
      match rest with
      | b2 :: b3 :: rest3 =>
        if ((b = 224 ∧ 160 ≤ b2 ∧ b2 ≤ 191) ∨
            (b = 237 ∧ 128 ≤ b2 ∧ b2 ≤ 159) ∨
            (b ≠ 224 ∧ b ≠ 237 ∧ 128 ≤ b2 ∧ b2 ≤ 191)) ∧
           128 ≤ b3 ∧ b3 ≤ 191 then
          Char.ofNat (((b - 224) * 64 + (b2 - 128)) * 64 + (b3 - 128)) :: utf8DecodeIgnoreAux fuel rest3
        else utf8DecodeIgnoreAux fuel rest
      | _ => utf8DecodeIgnoreAux fuel rest
    else if 240 ≤ b ∧ b ≤ 244 then
      match rest with
      | b2 :: b3 :: b4 :: rest4 =>
        if ((b = 240 ∧ 144 ≤ b2 ∧ b2 ≤ 191) ∨
            (b = 244 ∧ 128 ≤ b2 ∧ b2 ≤ 143) ∨
            (b ≠ 240 ∧ b ≠ 244 ∧ 128 ≤ b2 ∧ b2 ≤ 191)) ∧
           128 ≤ b3 ∧ b3 ≤ 191 ∧ 128 ≤ b4 ∧ b4 ≤ 191 then
          Char.ofNat ((((b - 240) * 64 + (b2 - 128)) * 64 + (b3 - 128)) * 64 + (b4 - 128)) ::
            utf8DecodeIgnoreAux fuel rest4
        else utf8DecodeIgnoreAux fuel rest
      | _ => utf8DecodeIgnoreAux fuel rest
    else utf8DecodeIgnoreAux fuel rest

/-- Embeds `bytes.decode("utf-8", errors="ignore")`: standard UTF-8
decoding, skipping bytes that do not form a valid sequence. -/
def utf8DecodeIgnore (bs : List Nat) : List Char := utf8DecodeIgnoreAux bs.length bs

/-- The JSON object `send_request_and_receive` serializes onto the wire:
the request fields in Python dict insertion order (`cmd`, then `ts`,
`token`, `account` added by the `update`, then `param`). -/
def requestJson (req : Request) : Json :=
  .obj ([("cmd", Json.str req.cmd)] ++
    (match req.ts with | some t => [("ts", Json.num t)] | none => []) ++
    (match req.token with | some t => [("token", Json.str t)] | none => []) ++
    (match req.account with | some a => [("account", Json.str a)] | none => []) ++
    (match req.param with | some p => [("param", p)] | none => []))

/-- Embeds the receive half of `send_request_and_receive`: read the 4-byte
little-endian length, then the payload, then decode.  `.error` is a raised
`ConnectionError`. -/
def receiveResponse (sched stream : List Nat) : Except String Json :=
  match recvall sched stream 4 with
  | none => .error "Failed to read response length"
  | some (header, stream2, sched2) =>
    if header.length < 4 then .error "Failed to read response length"
    else
      let resp_len := header.getD 0 0 + 256 * header.getD 1 0 +
        65536 * header.getD 2 0 + 16777216 * header.getD 3 0
      if resp_len = 0 then .ok (.obj [])
      else
        match recvall sched2 stream2 resp_len with
        | none => .error "Failed to read full response"
        | some (resp_bytes, _, _) =>
          let resp_text : String := ⟨utf8DecodeIgnore resp_bytes⟩
          match parseJson resp_text with
          | some v => .ok v
          | none => .ok (.obj [("raw", Json.str resp_text)])

/-- Embeds `send_request_and_receive` from `core.py`: frame and send the
request (the sent bytes are returned for inspection) and run the receive
half against the peer's byte `stream` under `recv` schedule `sched`. -/
def send_request_and_receive (request_obj : Json) (sched stream : List Nat) :
    List Nat × Except String Json :=
  let req_bytes := asciiEncodeIgnore (dumps request_obj)
  (leBytes4 req_bytes.length ++ req_bytes, receiveResponse sched stream)


/-! ### Shape lemmas for SHA-256 and base64 -/

/-- The SHA-256 digest is always 32 bytes. -/
theorem sha256_length (msg : List Nat) : (sha256 msg).length = 32 := by
  simp [sha256, wordBytesBE]

/-- Every byte of the SHA-256 digest is below 256. -/
theorem sha256_bytes_lt (msg : List Nat) : ∀ b ∈ sha256 msg, b < 256 := by
  intro b hb
  simp [sha256, wordBytesBE] at hb
  rcases hb with h|h|h|h|h|h|h|h|h|h|h|h|h|h|h|h|h|h|h|h|h|h|h|h|h|h|h|h|h|h|h|h <;> omega

/-- A list of length at least six splits into six cons cells and a tail. -/
theorem exists_cons6 {α : Type} (l : List α) (h : 6 ≤ l.length) :
    ∃ x1 x2 x3 x4 x5 x6 t, l = x1 :: x2 :: x3 :: x4 :: x5 :: x6 :: t := by
  match l with
  | x1 :: x2 :: x3 :: x4 :: x5 :: x6 :: t => exact ⟨x1, x2, x3, x4, x5, x6, t, rfl⟩
  | [] => simp at h
  | [a] => simp at h
  | [a, b] => simp at h
  | [a, b, c] => simp at h
  | [a, b, c, d] => simp at h
  | [a, b, c, d, e] => simp at h

/-- The digest has at least six leading bytes in explicit cons form. -/
theorem sha256_shape (msg : List Nat) :
    ∃ x1 x2 x3 x4 x5 x6 t, sha256 msg = x1 :: x2 :: x3 :: x4 :: x5 :: x6 :: t :=
  exists_cons6 _ (by rw [sha256_length]; norm_num)

/-- Base64 output length: four characters per started 3-byte group. -/
theorem b64EncodeBytes_length (bs : List Nat) :
    (b64EncodeBytes bs).length = (bs.length + 2) / 3 * 4 := by
  induction bs using b64EncodeBytes.induct <;> simp [b64EncodeBytes, *] <;> omega

/-- `b64Char` always lands in the base64 alphabet. -/
theorem b64Char_mem (i : Nat) : b64Char i ∈ b64Alphabet := by
  have hlen : b64Alphabet.length = 64 := rfl
  have h : i % 64 < b64Alphabet.length := by rw [hlen]; exact Nat.mod_lt _ (by norm_num)
  rw [b64Char, List.getD_eq_getElem _ _ h]
  exact List.getElem_mem h

/-- The first eight characters of the base64 encoding of a byte list with
at least six bytes are alphabet characters (no padding appears there). -/
theorem b64_take8_mem (b0 b1 b2 b3 b4 b5 : Nat) (rest : List Nat) :
    ∀ c ∈ (b64EncodeBytes (b0 :: b1 :: b2 :: b3 :: b4 :: b5 :: rest)).take 8,
      c ∈ b64Alphabet := by
  intro c hc
  cases rest with
  | nil =>
    simp [b64EncodeBytes] at hc
    rcases hc with h | h | h | h | h | h | h | h <;> subst h <;> exact b64Char_mem _
  | cons b6 rest2 =>
    simp [b64EncodeBytes] at hc
    rcases hc with h | h | h | h | h | h | h | h <;> subst h <;> exact b64Char_mem _

/-- Unfolding equation for `generate_token`. -/
theorem generate_token_def (cmd pw salt : String) (ts : Int) :
    generate_token cmd pw salt ts =
      (⟨(b64EncodeBytes (sha256 (utf8Encode (cmd ++ pw ++ salt ++ toString ts)))).take 8⟩,
        sha256 (utf8Encode (cmd ++ pw ++ salt ++ toString ts))) := rfl

/-- C1: `generate_token` returns `(token, key)` where `key` is the 32-byte
SHA-256 digest of the UTF-8 encoding of the separator-free concatenation
of `cmd`, the password, the salt and the decimal string of `ts`, and
`token` is the first 8 characters of the base64 encoding of that digest;
at the fixed vector `("set.miner.power", "passw0rd", "salt123",
1700000000)` the digest equals the SHA-256 of the literal concatenation
`"set.miner.powerpassw0rdsalt1231700000000"`. -/
theorem C1_generate_token_spec (cmd pw salt : String) (ts : Int) :
    generate_token cmd pw salt ts =
      (⟨(b64EncodeBytes (sha256 (utf8Encode (cmd ++ pw ++ salt ++ toString ts)))).take 8⟩,
        sha256 (utf8Encode (cmd ++ pw ++ salt ++ toString ts))) ∧
    (generate_token cmd pw salt ts).2.length = 32 ∧
    (generate_token "set.miner.power" "passw0rd" "salt123" 1700000000).2 =
      sha256_digest_bytes "set.miner.powerpassw0rdsalt1231700000000" := by
  refine ⟨generate_token_def cmd pw salt ts, sha256_length _, ?_⟩
  have h : ("set.miner.power" ++ "passw0rd" ++ "salt123" ++ toString (1700000000 : Int)) =
      "set.miner.powerpassw0rdsalt1231700000000" := by decide
  show sha256_digest_bytes _ = _
  exact congrArg sha256_digest_bytes h

/-- C2: `generate_token` is deterministic — equal inputs give equal
`(token, key)` pairs — and the token has exactly 8 characters, each from
the base64 alphabet. -/
theorem C2_generate_token_deterministic (cmd pw salt : String) (ts : Int) :
    generate_token cmd pw salt ts = generate_token cmd pw salt ts ∧
    (generate_token cmd pw salt ts).1.length = 8 ∧
    ∀ c ∈ (generate_token cmd pw salt ts).1.data, c ∈ b64Alphabet := by
  have hd := sha256_length (utf8Encode (cmd ++ pw ++ salt ++ toString ts))
  refine ⟨rfl, ?_, ?_⟩
  · show ((b64EncodeBytes (sha256 (utf8Encode (cmd ++ pw ++ salt ++ toString ts)))).take 8).length = 8
    rw [List.length_take, b64EncodeBytes_length, hd]
    norm_num
  · obtain ⟨x1, x2, x3, x4, x5, x6, t, hsh⟩ :=
      sha256_shape (utf8Encode (cmd ++ pw ++ salt ++ toString ts))
    intro c hc
    have hdata : (generate_token cmd pw salt ts).1.data =
        (b64EncodeBytes (sha256 (utf8Encode (cmd ++ pw ++ salt ++ toString ts)))).take 8 := rfl
    rw [hdata, hsh] at hc
    exact b64_take8_mem x1 x2 x3 x4 x5 x6 t c hc

/-! ### Round-trip lemmas for base64, PKCS#7 padding and ECB -/

/-- Decoding a base64 character yields its 6-bit index. -/
theorem b64CharVal_b64Char (i : Nat) (h : i < 64) : b64CharVal (b64Char i) = some i := by
  interval_cases i <;> rfl

/-- Base64 alphabet characters are never the padding character. -/
theorem b64Char_ne_pad (i : Nat) : b64Char i ≠ '=' := by
  have hm := b64Char_mem i
  intro h
  rw [h] at hm
  revert hm
  decide

/-- Base64 decoding inverts base64 encoding on byte lists. -/
theorem b64DecodeChars_encode (bs : List Nat) (h : ∀ b ∈ bs, b < 256) :
    b64DecodeChars (b64EncodeBytes bs) = some bs := by
  induction bs using b64EncodeBytes.induct with
  | case1 => rfl
  | case2 b1 =>
    have h1 : b1 < 256 := h b1 (by simp)
    have e1 : b1 / 4 < 64 := by omega
    have e2 : b1 % 4 * 16 < 64 := by omega
    simp only [b64EncodeBytes, b64DecodeChars, b64CharVal_b64Char _ e1, b64CharVal_b64Char _ e2]
    simp only [and_self, if_pos, Option.some.injEq, List.cons.injEq, and_true, true_and]
    omega
  | case3 b1 b2 =>
    have h1 : b1 < 256 := h b1 (by simp)
    have h2 : b2 < 256 := h b2 (by simp)
    have e1 : b1 / 4 < 64 := by omega
    have e2 : b1 % 4 * 16 + b2 / 16 < 64 := by omega
    have e3 : b2 % 16 * 4 < 64 := by omega
    simp only [b64EncodeBytes, b64DecodeChars, b64CharVal_b64Char _ e1, b64CharVal_b64Char _ e2,
      b64CharVal_b64Char _ e3]
    rw [if_neg (by simp [b64Char_ne_pad]), if_pos (by simp)]
    simp only [Option.some.injEq, List.cons.injEq, and_true]
    omega
  | case4 b1 b2 b3 rest ih =>
    have h1 : b1 < 256 := h b1 (by simp)
    have h2 : b2 < 256 := h b2 (by simp)
    have h3 : b3 < 256 := h b3 (by simp)
    have hrest : ∀ b ∈ rest, b < 256 := fun b hb => h b (by simp [hb])
    have e1 : b1 / 4 < 64 := by omega
    have e2 : b1 % 4 * 16 + b2 / 16 < 64 := by omega
    have e3 : b2 % 16 * 4 + b3 / 64 < 64 := by omega
    have e4 : b3 % 64 < 64 := by omega
    simp only [b64EncodeBytes, b64DecodeChars, b64CharVal_b64Char _ e1, b64CharVal_b64Char _ e2,
      b64CharVal_b64Char _ e3, b64CharVal_b64Char _ e4, ih hrest]
    rw [if_neg (by simp [b64Char_ne_pad]), if_neg (by simp [b64Char_ne_pad])]
    simp only [Option.some.injEq, List.cons.injEq, and_true]
    omega

/-- The last element of a nonempty replicate. -/
theorem getLast?_replicate (n a : Nat) (h : 1 ≤ n) :
    (List.replicate n a).getLast? = some a := by
  induction n with
  | zero => omega
  | succ k ih =>
    cases k with
    | zero => rfl
    | succ m =>
      rw [List.replicate_succ, List.replicate_succ, List.getLast?_cons_cons,
        ← List.replicate_succ]
      exact ih (by omega)

/-- Stripping PKCS#7 padding recovers the original data. -/
theorem pkcs7Unpad_pad (data : List Nat) : pkcs7Unpad (pkcs7_pad data 16) = some data := by
  unfold pkcs7_pad pkcs7Unpad
  have hlt : data.length % 16 < 16 := Nat.mod_lt _ (by norm_num)
  set p := 16 - data.length % 16 with hp
  have hp1 : 1 ≤ p := by omega
  have hrep : (List.replicate p p : List Nat) ≠ [] := by
    intro he
    rw [List.replicate_eq_nil_iff] at he
    omega
  rw [List.getLast?_append_of_ne_nil _ hrep, getLast?_replicate p p hp1]
  simp only [List.length_append, List.length_replicate]
  have harith : data.length + p - p = data.length := by omega
  rw [harith, List.drop_left, List.take_left]
  rw [if_pos]
  refine ⟨hp1, by omega, by omega, ?_⟩
  simp [List.all_eq_true, List.mem_replicate]

/-- The padded data always has a length that is a multiple of 16. -/
theorem pkcs7_pad_length (data : List Nat) : (pkcs7_pad data 16).length % 16 = 0 := by
  unfold pkcs7_pad
  have hlt : data.length % 16 < 16 := Nat.mod_lt _ (by norm_num)
  simp only [List.length_append, List.length_replicate]
  omega

/-- Padding preserves the byte bound (pad bytes are at most 16). -/
theorem pkcs7_pad_bytes_lt (data : List Nat) (h : ∀ b ∈ data, b < 256) :
    ∀ b ∈ pkcs7_pad data 16, b < 256 := by
  intro b hb
  unfold pkcs7_pad at hb
  rw [List.mem_append] at hb
  cases hb with
  | inl hb => exact h b hb
  | inr hb =>
    rw [List.mem_replicate] at hb
    omega

/-- Flattening the 16-byte chunks gives back the list. -/
theorem chunks16_flatten (l : List Nat) : (chunks16 l).flatten = l := by
  induction l using chunks16.induct with
  | case1 => simp [chunks16]
  | case2 b t ih =>
    rw [chunks16, List.flatten_cons, ih, List.take_append_drop]

/-- When the length is a multiple of 16, every chunk has length 16. -/
theorem chunks16_block_length (l : List Nat) (h : l.length % 16 = 0) :
    ∀ b ∈ chunks16 l, b.length = 16 := by
  induction l using chunks16.induct with
  | case1 => intro b hb; simp [chunks16] at hb
  | case2 x t ih =>
    intro b hb
    rw [chunks16] at hb
    have hlen : (x :: t).length % 16 = 0 := h
    have hpos : 1 ≤ (x :: t).length := by simp
    have h16 : 16 ≤ (x :: t).length := by omega
    rcases List.mem_cons.mp hb with hb | hb
    · subst hb
      rw [List.length_take]
      omega
    · have hdrop : ((x :: t).drop 16).length % 16 = 0 := by
        rw [List.length_drop]
        omega
      exact ih hdrop b hb

/-- Chunk bytes come from the original list. -/
theorem chunks16_mem (l : List Nat) (b : List Nat) (hb : b ∈ chunks16 l) :
    ∀ x ∈ b, x ∈ l := by
  induction l using chunks16.induct with
  | case1 => simp [chunks16] at hb
  | case2 y t ih =>
    rw [chunks16] at hb
    rcases List.mem_cons.mp hb with hb | hb
    · subst hb
      intro x hx
      exact List.mem_of_mem_take hx
    · intro x hx
      exact List.mem_of_mem_drop (ih hb x hx)

/-- Chunking the flattening of a list of 16-byte blocks gives them back. -/
theorem chunks16_of_blocks (bls : List (List Nat)) (h : ∀ b ∈ bls, b.length = 16) :
    chunks16 bls.flatten = bls := by
  induction bls with
  | nil => simp [chunks16]
  | cons b rest ih =>
    have hb : b.length = 16 := h b (by simp)
    have hcons : ∃ x t, b ++ rest.flatten = x :: t := by
      cases b with
      | nil => simp at hb
      | cons x t => exact ⟨x, t ++ rest.flatten, by simp⟩
    obtain ⟨x, t, hxt⟩ := hcons
    rw [List.flatten_cons, hxt, chunks16, ← hxt]
    rw [show (16 : Nat) = b.length from hb.symm, List.take_left, List.drop_left]
    rw [ih (fun bb hbb => h bb (by simp [hbb]))]

/-- ECB decryption undoes ECB encryption, blockwise, for any block-cipher
pair that is inverse on 16-byte blocks of bytes. -/
theorem ecbApply_roundtrip (enc dec : List Nat → List Nat)
    (l : List Nat) (hl : l.length % 16 = 0) (hb : ∀ x ∈ l, x < 256)
    (hlen : ∀ b, b.length = 16 → (∀ x ∈ b, x < 256) → (enc b).length = 16)
    (hdec : ∀ b, b.length = 16 → (∀ x ∈ b, x < 256) → dec (enc b) = b) :
    ecbApply dec (ecbApply enc l) = l := by
  unfold ecbApply
  have hblocks : ∀ b ∈ (chunks16 l).map enc, b.length = 16 := by
    intro b hbm
    rw [List.mem_map] at hbm
    obtain ⟨c, hc, hce⟩ := hbm
    subst hce
    exact hlen c (chunks16_block_length l hl c hc) (fun x hx => hb x (chunks16_mem l c hc x hx))
  rw [chunks16_of_blocks _ hblocks, List.map_map]
  have hmap : ((chunks16 l).map (dec ∘ enc)) = chunks16 l := by
    conv_rhs => rw [← List.map_id (chunks16 l)]
    apply List.map_congr_left
    intro c hc
    simp only [Function.comp_apply, id_eq]
    exact hdec c (chunks16_block_length l hl c hc) (fun x hx => hb x (chunks16_mem l c hc x hx))
  rw [hmap, chunks16_flatten]

/-! ### JSON serializer/parser round trip -/

/-- Parsing a serialized hexadecimal digit gives back its value. -/
theorem hexVal_toHexChar (d : Nat) (h : d < 16) : hexVal (toHexChar d) = some d := by
  interval_cases d <;> rfl

theorem parseStringBody_ser (cs : List Char) (rest : List Char) :
    parseStringBody ((cs.map escapeChar).flatten ++ '"' :: rest) = some (cs, rest) := by
  induction cs with
  | nil =>
    rw [List.map_nil, List.flatten_nil, List.nil_append, parseStringBody.eq_def]
    simp
  | cons c cs ih =>
    simp only [List.map_cons, List.flatten_cons, List.append_assoc]
    by_cases h1 : c = '"' ∨ c = '\\'
    · rw [escapeChar, if_pos h1]
      rcases h1 with h1 | h1 <;> subst h1 <;>
        · rw [List.cons_append, List.cons_append, List.nil_append, parseStringBody.eq_def]
          simp [unescapeChar, ih]
    · by_cases h2 : 32 ≤ c.toNat
      · have hq : ¬(c = '"') := fun h => h1 (Or.inl h)
        have hb : ¬(c = '\\') := fun h => h1 (Or.inr h)
        rw [escapeChar, if_neg h1, if_pos h2]
        simp only [List.cons_append, List.nil_append]
        rw [parseStringBody.eq_def]
        simp [hq, hb, ih]
      · by_cases h3 : c = Char.ofNat 8
        · subst h3
          rw [escapeChar, if_neg h1, if_neg h2, if_pos rfl]
          rw [List.cons_append, List.cons_append, List.nil_append, parseStringBody.eq_def]
          simp [unescapeChar, ih]
        · by_cases h4 : c = Char.ofNat 9
          · subst h4
            rw [escapeChar, if_neg h1, if_neg h2, if_neg h3, if_pos rfl]
            rw [List.cons_append, List.cons_append, List.nil_append, parseStringBody.eq_def]
            simp [unescapeChar, ih]
          · by_cases h5 : c = Char.ofNat 10
            · subst h5
              rw [escapeChar, if_neg h1, if_neg h2, if_neg h3, if_neg h4, if_pos rfl]
              rw [List.cons_append, List.cons_append, List.nil_append, parseStringBody.eq_def]
              simp [unescapeChar, ih]
            · by_cases h6 : c = Char.ofNat 12
              · subst h6
                rw [escapeChar, if_neg h1, if_neg h2, if_neg h3, if_neg h4, if_neg h5,
                  if_pos rfl]
                rw [List.cons_append, List.cons_append, List.nil_append, parseStringBody.eq_def]
                simp [unescapeChar, ih]
              · by_cases h7 : c = Char.ofNat 13
                · subst h7
                  rw [escapeChar, if_neg h1, if_neg h2, if_neg h3, if_neg h4, if_neg h5,
                    if_neg h6, if_pos rfl]
                  rw [List.cons_append, List.cons_append, List.nil_append,
                    parseStringBody.eq_def]
                  simp [unescapeChar, ih]
                · have h8 : c.toNat < 32 := by omega
                  have hdiv : c.toNat / 16 < 16 := by omega
                  have hmod : c.toNat % 16 < 16 := by omega
                  rw [escapeChar, if_neg h1, if_neg h2, if_neg h3, if_neg h4, if_neg h5,
                    if_neg h6, if_neg h7]
                  simp only [List.cons_append, List.nil_append]
                  rw [parseStringBody.eq_def]
                  simp only [reduceIte, reduceCtorEq]
                  simp only [show hexVal '0' = some 0 from rfl,
                    hexVal_toHexChar _ hdiv, hexVal_toHexChar _ hmod]
                  have harith : ((0 * 16 + 0) * 16 + c.toNat / 16) * 16 + c.toNat % 16 =
                      c.toNat := by omega
                  simp only [harith]
                  rw [if_pos (Or.inl (by omega : c.toNat < 55296))]
                  simp [Char.ofNat_toNat, ih]

/-- A valid code point survives the `Char.ofNat`/`Char.toNat` round trip. -/
theorem toNat_ofNat_valid (n : Nat) (h : n.isValidChar) : (Char.ofNat n).toNat = n := by
  unfold Char.ofNat
  rw [dif_pos h]
  rfl

/-- All characters of `natChars` are decimal digits. -/
theorem natChars_digits (n : Nat) : ∀ c ∈ natChars n, isDigitChar c = true := by
  intro c hc
  unfold natChars at hc
  by_cases h : n = 0
  · simp [h] at hc
    subst hc
    rfl
  · rw [if_neg h, List.mem_map] at hc
    obtain ⟨d, hd, hdc⟩ := hc
    rw [List.mem_reverse] at hd
    have hd10 : d < 10 := Nat.digits_lt_base (by norm_num) hd
    subst hdc
    have hv : (48 + d).isValidChar := Or.inl (by omega)
    simp [isDigitChar, toNat_ofNat_valid _ hv]
    omega

/-- `natChars` is never empty. -/
theorem natChars_ne_nil (n : Nat) : natChars n ≠ [] := by
  unfold natChars
  by_cases h : n = 0
  · simp [h]
  · rw [if_neg h]
    simp [Nat.digits_ne_nil_iff_ne_zero.mpr h]

/-- Folding decimal accumulation over reversed digits. -/
theorem foldl_digits_reverse (L : List Nat) (a : Nat) :
    L.reverse.foldl (fun acc d => acc * 10 + d) a = a * 10 ^ L.length + Nat.ofDigits 10 L := by
  induction L generalizing a with
  | nil => simp
  | cons d L ih =>
    rw [List.reverse_cons, List.foldl_append]
    simp only [List.foldl_cons, List.foldl_nil, ih, Nat.ofDigits_cons, List.length_cons]
    ring

/-- The digit fold recovers the number from `natChars`. -/
theorem foldl_natChars (n : Nat) :
    (natChars n).foldl (fun a c => a * 10 + (c.toNat - 48)) 0 = n := by
  unfold natChars
  by_cases h : n = 0
  · simp [h]
  · rw [if_neg h, List.foldl_map]
    have hext : (Nat.digits 10 n).reverse.foldl
        (fun a d => a * 10 + ((Char.ofNat (48 + d)).toNat - 48)) 0 =
        (Nat.digits 10 n).reverse.foldl (fun a d => a * 10 + d) 0 := by
      apply List.foldl_ext
      intro a d hd
      rw [List.mem_reverse] at hd
      have hd10 : d < 10 := Nat.digits_lt_base (by norm_num) hd
      rw [toNat_ofNat_valid _ (Or.inl (by omega))]
      omega
    rw [hext, foldl_digits_reverse, Nat.ofDigits_digits]
    omega

/-- `takeWhile` over a concatenation where the first part satisfies the
predicate and the second starts by refuting it. -/
theorem takeWhile_all_append (p : Char → Bool) (l r : List Char)
    (hl : ∀ c ∈ l, p c = true) (hr : ∀ c, r.head? = some c → p c = false) :
    (l ++ r).takeWhile p = l ∧ (l ++ r).dropWhile p = r := by
  induction l with
  | nil =>
    simp only [List.nil_append]
    cases r with
    | nil => simp
    | cons c t => simp [List.takeWhile, List.dropWhile, hr c rfl]
  | cons c l ih =>
    have hc : p c = true := hl c (by simp)
    have ihh := ih (fun x hx => hl x (by simp [hx]))
    simp [List.takeWhile, List.dropWhile, hc, ihh.1, ihh.2]

/-- Parsing the decimal serialization of `n` consumes exactly it. -/
theorem parseNatChars_natChars (n : Nat) (rest : List Char)
    (hrest : ∀ c, rest.head? = some c → isDigitChar c = false) :
    parseNatChars (natChars n ++ rest) = some (n, rest) := by
  unfold parseNatChars
  obtain ⟨htake, hdrop⟩ := takeWhile_all_append isDigitChar (natChars n) rest
    (natChars_digits n) hrest
  rw [htake, hdrop]
  rw [if_neg (by simp [List.isEmpty_iff, natChars_ne_nil n])]
  rw [foldl_natChars]

mutual

/-- Node-count size of a JSON value (drives the parser fuel bound). -/
def jsize : Json → Nat
  | .null => 1
  | .bool _ => 1
  | .num _ => 1
  | .str _ => 1
  | .arr xs => 1 + jsizeList xs
  | .obj ms => 1 + jsizeMembers ms

/-- Size of an array's elements. -/
def jsizeList : List Json → Nat
  | [] => 1
  | x :: r => jsize x + jsizeList r

/-- Size of an object's members. -/
def jsizeMembers : List (String × Json) → Nat
  | [] => 1
  | (_, v) :: r => 1 + jsize v + jsizeMembers r

end

/-- Sizes are positive. -/
theorem jsize_pos (v : Json) : 1 ≤ jsize v := by
  cases v <;> simp [jsize]

/-- List sizes are positive. -/
theorem jsizeList_pos (xs : List Json) : 1 ≤ jsizeList xs := by
  cases xs with
  | nil => simp [jsizeList]
  | cons x r =>
    have := jsize_pos x
    simp [jsizeList]
    omega

/-- Member sizes are positive. -/
theorem jsizeMembers_pos (ms : List (String × Json)) : 1 ≤ jsizeMembers ms := by
  cases ms with
  | nil => simp [jsizeMembers]
  | cons m r =>
    obtain ⟨k, v⟩ := m
    simp [jsizeMembers]
    omega

/-- The decimal serialization of an integer is nonempty. -/
theorem intChars_ne_nil (n : Int) : intChars n ≠ [] := by
  unfold intChars
  by_cases h : n < 0
  · simp [h]
  · rw [if_neg h]
    exact natChars_ne_nil _

/-- The serialization of a value is nonempty. -/
theorem dumpsVal_ne_nil (v : Json) : dumpsVal v ≠ [] := by
  cases v with
  | null => simp [dumpsVal]
  | bool b => cases b <;> simp [dumpsVal]
  | num n => simp [dumpsVal]; exact intChars_ne_nil n
  | str s => simp [dumpsVal, serStringChars]
  | arr xs => simp [dumpsVal]
  | obj ms => simp [dumpsVal]

/-- The first character of a serialized value is never a closing bracket
or closing brace. -/
theorem dumpsVal_head_ne (v : Json) :
    ∀ c, (dumpsVal v).head? = some c → c ≠ ']' ∧ c ≠ rbrace := by
  intro c hc
  cases v with
  | null => simp [dumpsVal] at hc; subst hc; decide
  | bool b => cases b <;> (simp [dumpsVal] at hc; subst hc; decide)
  | str s => simp [dumpsVal, serStringChars] at hc; subst hc; decide
  | arr xs => simp [dumpsVal] at hc; subst hc; decide
  | obj ms => simp [dumpsVal] at hc; subst hc; decide
  | num n =>
    simp only [dumpsVal, intChars] at hc
    by_cases hneg : n < 0
    · rw [if_pos hneg] at hc
      simp at hc
      subst hc
      decide
    · rw [if_neg hneg] at hc
      have hmem : c ∈ natChars n.toNat := by
        cases hnc : natChars n.toNat with
        | nil => exact absurd hnc (natChars_ne_nil _)
        | cons x t =>
          rw [hnc] at hc
          simp at hc
          subst hc
          simp [hnc]
      have hdig := natChars_digits _ c hmem
      constructor
      · intro he; subst he; revert hdig; decide
      · intro he; subst he; revert hdig; decide

/-- A digit character is none of the keyword or structure openers. -/
theorem isDigit_ne_openers (c : Char) (h : isDigitChar c = true) :
    c ≠ 'n' ∧ c ≠ 't' ∧ c ≠ 'f' ∧ c ≠ '"' ∧ c ≠ '-' ∧ c ≠ '[' ∧ c ≠ lbrace := by
  refine ⟨?_, ?_, ?_, ?_, ?_, ?_, ?_⟩ <;> (intro he; subst he; revert h; decide)

/-- The characters that may legally follow a serialized value (so that
greedy number parsing stops in the right place). -/
def restOk (rest : List Char) : Prop :=
  match rest with
  | [] => True
  | c :: _ => c = ',' ∨ c = ']' ∨ c = rbrace

/-- A legal continuation never starts with a digit. -/
theorem restOk_not_digit (rest : List Char) (hr : restOk rest) :
    ∀ c, rest.head? = some c → isDigitChar c = false := by
  intro c hc
  cases rest with
  | nil => simp at hc
  | cons x t =>
    simp at hc
    subst hc
    rcases hr with h | h | h <;> subst h <;> rfl

/-- A string is its own character list, repackaged. -/
theorem string_mk_data (s : String) : String.mk s.data = s := by cases s; rfl

/-- `lbrace` is none of the other opener characters and not a digit. -/
theorem lbrace_facts :
    lbrace ≠ 'n' ∧ lbrace ≠ 't' ∧ lbrace ≠ 'f' ∧ lbrace ≠ '"' ∧ lbrace ≠ '-' ∧
    lbrace ≠ '[' ∧ isDigitChar lbrace = false := by decide

mutual

/-- Size of a value is at most the length of its serialization. -/
theorem jsize_le_dumps (v : Json) : jsize v ≤ (dumpsVal v).length := by
  cases v with
  | null => simp [jsize, dumpsVal]
  | bool b => cases b <;> simp [jsize, dumpsVal]
  | num n =>
    have := List.length_pos.mpr (intChars_ne_nil n)
    simp [jsize, dumpsVal]
    omega
  | str s => simp [jsize, dumpsVal, serStringChars]
  | arr xs =>
    have h := jsizeList_le_dumps xs
    simp [jsize, dumpsVal]
    omega
  | obj ms =>
    have h := jsizeMembers_le_dumps ms
    simp [jsize, dumpsVal]
    omega
termination_by sizeOf v

/-- Size of array elements is at most the serialized length plus one. -/
theorem jsizeList_le_dumps (xs : List Json) : jsizeList xs ≤ (dumpsArr xs).length + 1 := by
  cases xs with
  | nil => simp [jsizeList, dumpsArr]
  | cons x xs2 =>
    cases xs2 with
    | nil =>
      have := jsize_le_dumps x
      simp [jsizeList, dumpsArr]
      omega
    | cons y xs3 =>
      have h1 := jsize_le_dumps x
      have h2 := jsizeList_le_dumps (y :: xs3)
      have hl : jsizeList (y :: xs3) = jsize y + jsizeList xs3 := by simp [jsizeList]
      simp [jsizeList, dumpsArr]
      omega
termination_by sizeOf xs

/-- Size of object members is at most the serialized length plus one. -/
theorem jsizeMembers_le_dumps (ms : List (String × Json)) :
    jsizeMembers ms ≤ (dumpsObj ms).length + 1 := by
  cases ms with
  | nil => simp [jsizeMembers, dumpsObj]
  | cons m ms2 =>
    obtain ⟨kstr, v⟩ := m
    cases ms2 with
    | nil =>
      have := jsize_le_dumps v
      simp [jsizeMembers, dumpsObj]
      omega
    | cons m2 ms3 =>
      have h1 := jsize_le_dumps v
      have h2 := jsizeMembers_le_dumps (m2 :: ms3)
      have hl : jsizeMembers (m2 :: ms3) = 1 + jsize m2.2 + jsizeMembers ms3 := by
        obtain ⟨a2, b2⟩ := m2
        simp [jsizeMembers]
      simp [jsizeMembers, dumpsObj]
      omega
termination_by sizeOf ms

end

/-- The three parser round-trip statements, proved together by strong
induction on the structural size of the value. -/
theorem parse_dumps_strong : ∀ n : Nat,
    (∀ v : Json, sizeOf v ≤ n → ∀ fuel rest, jsize v ≤ fuel → restOk rest →
      parseVal fuel (dumpsVal v ++ rest) = some (v, rest)) ∧
    (∀ xs : List Json, sizeOf xs ≤ n → xs ≠ [] → ∀ fuel rest, jsizeList xs ≤ fuel →
      parseElems fuel (dumpsArr xs ++ ']' :: rest) = some (xs, rest)) ∧
    (∀ ms : List (String × Json), sizeOf ms ≤ n → ms ≠ [] → ∀ fuel rest,
      jsizeMembers ms ≤ fuel →
      parseMembers fuel (dumpsObj ms ++ rbrace :: rest) = some (ms, rest)) := by
  intro n
  induction n using Nat.strong_induction_on with
  | _ n ih =>
    refine ⟨?_, ?_, ?_⟩
    · intro v hsv fuel rest hf hr
      cases fuel with
      | zero => exact absurd hf (by have := jsize_pos v; omega)
      | succ k =>
        cases v with
        | null => simp [dumpsVal, parseVal]
        | bool b => cases b <;> simp [dumpsVal, parseVal]
        | str s =>
          have hin : dumpsVal (.str s) ++ rest =
              '"' :: ((s.data.map escapeChar).flatten ++ '"' :: rest) := by
            simp [dumpsVal, serStringChars]
          rw [hin]
          simp [parseVal, parseStringBody_ser s.data rest, string_mk_data]
        | num n' =>
          by_cases hneg : n' < 0
          · have hin : dumpsVal (.num n') ++ rest = '-' :: (natChars n'.natAbs ++ rest) := by
              simp [dumpsVal, intChars, hneg]
            rw [hin]
            simp [parseVal, parseNatChars_natChars n'.natAbs rest (restOk_not_digit rest hr)]
            rw [abs_of_neg hneg]
            ring
          · obtain ⟨c, t, hct⟩ : ∃ c t, natChars n'.toNat = c :: t := by
              cases hnc : natChars n'.toNat with
              | nil => exact absurd hnc (natChars_ne_nil _)
              | cons c t => exact ⟨c, t, rfl⟩
            have hcd : isDigitChar c = true :=
              natChars_digits n'.toNat c (by rw [hct]; exact List.mem_cons_self c t)
            obtain ⟨hn1, hn2, hn3, hn4, hn5, hn6, hn7⟩ := isDigit_ne_openers c hcd
            have hin : dumpsVal (.num n') ++ rest = c :: (t ++ rest) := by
              simp [dumpsVal, intChars, hneg, hct]
            have hp := parseNatChars_natChars n'.toNat rest (restOk_not_digit rest hr)
            rw [hct] at hp
            simp only [List.cons_append] at hp
            rw [hin]
            simp [parseVal, hn1, hn2, hn3, hn4, hn5, hn6, hn7, hcd, hp,
              Int.toNat_of_nonneg (by omega : (0 : Int) ≤ n')]
        | arr xs =>
          have hin : dumpsVal (.arr xs) ++ rest = '[' :: (dumpsArr xs ++ ']' :: rest) := by
            simp [dumpsVal]
          rw [hin]
          cases xs with
          | nil => simp [dumpsArr, parseVal]
          | cons x xs2 =>
            obtain ⟨c, t, hct⟩ : ∃ c t, dumpsVal x = c :: t := by
              cases hd : dumpsVal x with
              | nil => exact absurd hd (dumpsVal_ne_nil x)
              | cons c t => exact ⟨c, t, rfl⟩
            have hcne := (dumpsVal_head_ne x c (by simp [hct])).1
            have hne2 : dumpsArr (x :: xs2) ≠ [] := by
              cases xs2 <;> simp [dumpsArr, hct]
            have hhd : (dumpsArr (x :: xs2)).head? ≠ some ']' := by
              cases xs2 <;> simp [dumpsArr, hct, hcne]
            have hsz : jsizeList (x :: xs2) ≤ k := by
              have h1 : jsize (Json.arr (x :: xs2)) = 1 + jsizeList (x :: xs2) := by
                simp [jsize]
              omega
            have hlt : sizeOf (x :: xs2) < n := by
              simp at hsv ⊢
              omega
            have helems := (ih (sizeOf (x :: xs2)) hlt).2.1 (x :: xs2) (le_refl _)
              (by simp) k rest hsz
            simp [parseVal, hne2, hhd, helems]
        | obj ms =>
          obtain ⟨hl1, hl2, hl3, hl4, hl5, hl6, hl7⟩ := lbrace_facts
          have hin : dumpsVal (.obj ms) ++ rest =
              lbrace :: (dumpsObj ms ++ rbrace :: rest) := by
            simp [dumpsVal]
          rw [hin]
          cases ms with
          | nil => simp [dumpsObj, parseVal, hl1, hl2, hl3, hl4, hl5, hl6, hl7]
          | cons m ms2 =>
            have hne2 : dumpsObj (m :: ms2) ≠ [] := by
              obtain ⟨kstr, v⟩ := m
              cases ms2 <;> simp [dumpsObj, serStringChars]
            have hhd : (dumpsObj (m :: ms2)).head? ≠ some rbrace := by
              obtain ⟨kstr, v⟩ := m
              cases ms2 <;> (simp [dumpsObj, serStringChars]; decide)
            have hsz : jsizeMembers (m :: ms2) ≤ k := by
              have h1 : jsize (Json.obj (m :: ms2)) = 1 + jsizeMembers (m :: ms2) := by
                simp [jsize]
              omega
            have hlt : sizeOf (m :: ms2) < n := by
              simp at hsv ⊢
              omega
            have hmems := (ih (sizeOf (m :: ms2)) hlt).2.2 (m :: ms2) (le_refl _)
              (by simp) k rest hsz
            simp [parseVal, hl1, hl2, hl3, hl4, hl5, hl6, hl7, hne2, hhd, hmems]
    · intro xs hsxs hne fuel rest hf
      cases xs with
      | nil => exact absurd rfl hne
      | cons x xs2 =>
        cases fuel with
        | zero => exact absurd hf (by have := jsizeList_pos (x :: xs2); omega)
        | succ k =>
          have hlink : jsizeList (x :: xs2) = jsize x + jsizeList xs2 := by
            simp [jsizeList]
          have hltx : sizeOf x < n := by
            simp at hsxs
            omega
          cases xs2 with
          | nil =>
            have hn1 : jsizeList ([] : List Json) = 1 := by simp [jsizeList]
            have hsx : jsize x ≤ k := by omega
            have hx := (ih (sizeOf x) hltx).1 x (le_refl _) k (']' :: rest) hsx
              (by simp [restOk])
            simp only [dumpsArr, parseElems]
            rw [hx]
            simp
          | cons y xs3 =>
            have hlink2 : jsizeList (y :: xs3) = jsize y + jsizeList xs3 := by
              simp [jsizeList]
            have h3 := jsizeList_pos (y :: xs3)
            have hxp := jsize_pos x
            have hsx : jsize x ≤ k := by omega
            have hs2 : jsizeList (y :: xs3) ≤ k := by omega
            have hlt2 : sizeOf (y :: xs3) < n := by
              simp at hsxs ⊢
              omega
            have hin : dumpsArr (x :: y :: xs3) ++ ']' :: rest =
                dumpsVal x ++ (',' :: (dumpsArr (y :: xs3) ++ ']' :: rest)) := by
              simp [dumpsArr]
            have hx := (ih (sizeOf x) hltx).1 x (le_refl _) k
              (',' :: (dumpsArr (y :: xs3) ++ ']' :: rest)) hsx (by simp [restOk])
            have hrest := (ih (sizeOf (y :: xs3)) hlt2).2.1 (y :: xs3) (le_refl _)
              (by simp) k rest hs2
            rw [hin]
            simp only [parseElems]
            rw [hx]
            simp [hrest]
    · intro ms hsms hne fuel rest hf
      cases ms with
      | nil => exact absurd rfl hne
      | cons m ms2 =>
        obtain ⟨kstr, v⟩ := m
        cases fuel with
        | zero => exact absurd hf (by have := jsizeMembers_pos ((kstr, v) :: ms2); omega)
        | succ k =>
          have hlink : jsizeMembers ((kstr, v) :: ms2) = 1 + jsize v + jsizeMembers ms2 := by
            simp [jsizeMembers]
          have hltv : sizeOf v < n := by
            simp at hsms
            omega
          cases ms2 with
          | nil =>
            have hn1 : jsizeMembers ([] : List (String × Json)) = 1 := by simp [jsizeMembers]
            have hsv : jsize v ≤ k := by omega
            have hin : dumpsObj [(kstr, v)] ++ rbrace :: rest =
                '"' :: ((kstr.data.map escapeChar).flatten ++
                  '"' :: (':' :: (dumpsVal v ++ rbrace :: rest))) := by
              simp [dumpsObj, serStringChars]
            have hv := (ih (sizeOf v) hltv).1 v (le_refl _) k (rbrace :: rest) hsv
              (by simp [restOk])
            rw [hin]
            simp only [parseMembers]
            rw [parseStringBody_ser kstr.data (':' :: (dumpsVal v ++ rbrace :: rest))]
            simp only [Option.bind_eq_bind, Option.some_bind]
            rw [hv]
            simp [string_mk_data, show rbrace ≠ ',' from by decide]
          | cons m2 ms3 =>
            have hlink2 : jsizeMembers (m2 :: ms3) = 1 + jsize m2.2 + jsizeMembers ms3 := by
              obtain ⟨a2, b2⟩ := m2
              simp [jsizeMembers]
            have h3 := jsizeMembers_pos (m2 :: ms3)
            have hvp := jsize_pos v
            have hsv : jsize v ≤ k := by omega
            have hs2 : jsizeMembers (m2 :: ms3) ≤ k := by omega
            have hlt2 : sizeOf (m2 :: ms3) < n := by
              simp at hsms ⊢
              omega
            have hin : dumpsObj ((kstr, v) :: m2 :: ms3) ++ rbrace :: rest =
                '"' :: ((kstr.data.map escapeChar).flatten ++
                  '"' :: (':' :: (dumpsVal v ++
                    (',' :: (dumpsObj (m2 :: ms3) ++ rbrace :: rest))))) := by
              simp [dumpsObj, serStringChars]
            have hv := (ih (sizeOf v) hltv).1 v (le_refl _) k
              (',' :: (dumpsObj (m2 :: ms3) ++ rbrace :: rest)) hsv (by simp [restOk])
            have hrest := (ih (sizeOf (m2 :: ms3)) hlt2).2.2 (m2 :: ms3) (le_refl _)
              (by simp) k rest hs2
            rw [hin]
            simp only [parseMembers]
            rw [parseStringBody_ser kstr.data _]
            simp only [Option.bind_eq_bind, Option.some_bind]
            rw [hv]
            simp [hrest, string_mk_data]

/-- Parsing the serialization of a value, followed by a legal
continuation, returns the value and the continuation. -/
theorem parseVal_dumps (v : Json) (fuel : Nat) (rest : List Char)
    (hf : jsize v ≤ fuel) (hr : restOk rest) :
    parseVal fuel (dumpsVal v ++ rest) = some (v, rest) :=
  (parse_dumps_strong (sizeOf v)).1 v (le_refl _) fuel rest hf hr

/-- Parsing undoes the compact serialization: the JSON round trip. -/
theorem parseJson_dumps (v : Json) : parseJson (dumps v) = some v := by
  unfold parseJson dumps
  have hfuel : jsize v ≤ (dumpsVal v).length + 1 := by
    have := jsize_le_dumps v
    omega
  have h := parseVal_dumps v ((dumpsVal v).length + 1) [] hfuel trivial
  rw [List.append_nil] at h
  simp [h]

/-! ### Byte bounds and the C3 round trip -/

/-- UTF-8 encoded characters are bytes. -/
theorem utf8EncodeChar_lt (c : Char) : ∀ b ∈ utf8EncodeChar c, b < 256 := by
  intro b hb
  have hv : c.toNat < 1114112 := by
    rcases c.valid with h | h
    · exact Nat.lt_trans h (by norm_num)
    · exact h.2
  unfold utf8EncodeChar at hb
  by_cases h1 : c.toNat < 128
  · simp [h1] at hb
    omega
  · by_cases h2 : c.toNat < 2048
    · simp [h1, h2] at hb
      rcases hb with hb | hb <;> omega
    · by_cases h3 : c.toNat < 65536
      · simp [h1, h2, h3] at hb
        rcases hb with hb | hb | hb <;> omega
      · simp [h1, h2, h3] at hb
        rcases hb with hb | hb | hb | hb <;> omega

/-- UTF-8 encoded strings are byte lists. -/
theorem utf8Encode_bytes_lt (s : String) : ∀ b ∈ utf8Encode s, b < 256 := by
  intro b hb
  unfold utf8Encode at hb
  rw [List.mem_flatten] at hb
  obtain ⟨l, hl, hbl⟩ := hb
  rw [List.mem_map] at hl
  obtain ⟨c, _, hcl⟩ := hl
  subst hcl
  exact utf8EncodeChar_lt c b hbl

/-- ECB output bytes are bytes, for a byte-preserving block function. -/
theorem ecbApply_bytes_lt (enc : List Nat → List Nat) (l : List Nat)
    (hl : l.length % 16 = 0) (hb : ∀ x ∈ l, x < 256)
    (hbytes : ∀ b, b.length = 16 → (∀ x ∈ b, x < 256) → ∀ x ∈ enc b, x < 256) :
    ∀ x ∈ ecbApply enc l, x < 256 := by
  intro x hx
  unfold ecbApply at hx
  rw [List.mem_flatten] at hx
  obtain ⟨bl, hbl, hxbl⟩ := hx
  rw [List.mem_map] at hbl
  obtain ⟨ch, hch, hche⟩ := hbl
  subst hche
  exact hbytes ch (chunks16_block_length l hl ch hch)
    (fun y hy => hb y (chunks16_mem l ch hch y hy)) x hxbl

/--
C3: for every JSON value and every 32-byte key, base64-decoding the
output of `encrypt_param_aes_ecb_base64`, AES-ECB-decrypting it with the
same key, and stripping PKCS#7 padding yields exactly the compact
canonical JSON serialization of the value (as UTF-8 bytes), and parsing
that serialization returns a structurally equal value.  The external AES
primitive is abstracted as any keyed block-cipher pair that is
length-preserving, byte-valued and inverse on 16-byte blocks.
-/
theorem C3_encrypt_param_roundtrip
    (aesEnc aesDec : List Nat → List Nat → List Nat) (key : List Nat) (v : Json)
    (hkey : key.length = 32)
    (hlen : ∀ b, b.length = 16 → (∀ x ∈ b, x < 256) → (aesEnc key b).length = 16)
    (hbytes : ∀ b, b.length = 16 → (∀ x ∈ b, x < 256) → ∀ x ∈ aesEnc key b, x < 256)
    (hdec : ∀ b, b.length = 16 → (∀ x ∈ b, x < 256) → aesDec key (aesEnc key b) = b) :
    ∃ ct, base64Decode (encrypt_param_aes_ecb_base64 (aesEnc key) v) = some ct ∧
      pkcs7Unpad (ecbApply (aesDec key) ct) =
        some (utf8Encode (dumps v)) ∧
      parseJson (dumps v) = some v := by
  have hdata := utf8Encode_bytes_lt (dumps v)
  have hpadlen := pkcs7_pad_length (utf8Encode (dumps v))
  have hpadbytes := pkcs7_pad_bytes_lt (utf8Encode (dumps v)) hdata
  have hctbytes := ecbApply_bytes_lt (aesEnc key) (pkcs7_pad (utf8Encode (dumps v)) 16)
    hpadlen hpadbytes hbytes
  refine ⟨ecbApply (aesEnc key) (pkcs7_pad (utf8Encode (dumps v)) 16), ?_, ?_, parseJson_dumps v⟩
  · show b64DecodeChars (b64EncodeBytes _) = _
    exact b64DecodeChars_encode _ hctbytes
  · show pkcs7Unpad (ecbApply (aesDec key) (ecbApply (aesEnc key) _)) = _
    rw [ecbApply_roundtrip (aesEnc key) (aesDec key) _ hpadlen hpadbytes hlen hdec]
    exact pkcs7Unpad_pad _

/-! ### recvall and the receive path -/

/-- `recvallAux` fails exactly on EOF: shortage of bytes gives `none`. -/
theorem recvallAux_short (n : Nat) : ∀ N acc sched stream, stream.length ≤ N →
    acc.length + stream.length < n → recvallAux n acc sched stream = none := by
  intro N
  induction N with
  | zero =>
    intro acc sched stream hN hshort
    rw [recvallAux.eq_def]
    dsimp only
    rw [if_neg (by omega)]
    cases stream with
    | nil => rfl
    | cons s srest => simp at hN
  | succ N ih =>
    intro acc sched stream hN hshort
    rw [recvallAux.eq_def]
    dsimp only
    rw [if_neg (by omega)]
    cases stream with
    | nil => rfl
    | cons s srest =>
      simp only []
      apply ih
      · have h1 : 1 ≤ min (max (sched.headD (n - acc.length)) 1) (n - acc.length) := by
          have : 1 ≤ n - acc.length := by simp at hshort ⊢; omega
          omega
        rw [List.length_drop]
        simp at hN
        simp
        omega
      · rw [List.length_append, List.length_take, List.length_drop]
        simp at hshort
        simp
        omega

/-- `recvallAux` succeeds when enough bytes are available, returning
exactly the requested prefix. -/
theorem recvallAux_exact (n : Nat) : ∀ N acc sched stream, stream.length ≤ N →
    n ≤ acc.length + stream.length →
    ∃ sched2, recvallAux n acc sched stream =
      some (acc ++ stream.take (n - acc.length), stream.drop (n - acc.length), sched2) := by
  intro N
  induction N with
  | zero =>
    intro acc sched stream hN hle
    rw [recvallAux.eq_def]
    dsimp only
    cases stream with
    | nil =>
      simp only [List.length_nil, Nat.add_zero] at hle
      rw [if_pos hle]
      exact ⟨sched, by simp [Nat.sub_eq_zero_of_le hle]⟩
    | cons s srest => simp at hN
  | succ N ih =>
    intro acc sched stream hN hle
    rw [recvallAux.eq_def]
    dsimp only
    by_cases hdone : n ≤ acc.length
    · rw [if_pos hdone]
      exact ⟨sched, by simp [Nat.sub_eq_zero_of_le hdone]⟩
    · rw [if_neg hdone]
      cases stream with
      | nil => simp at hle; omega
      | cons s srest =>
        simp only []
        set k := min (max (sched.headD (n - acc.length)) 1) (n - acc.length) with hk
        have hk1 : 1 ≤ k := by
          have : 1 ≤ n - acc.length := by omega
          omega
        have hkw : k ≤ n - acc.length := by omega
        have hklen : k ≤ (s :: srest).length := by
          by_contra hgt
          push_neg at hgt
          simp only [List.length_cons] at hgt hle
          omega
        have hlen2 : ((s :: srest).drop k).length ≤ N := by
          rw [List.length_drop]
          simp only [List.length_cons] at hN ⊢
          omega
        have hle2 : n ≤ (acc ++ (s :: srest).take k).length + ((s :: srest).drop k).length := by
          rw [List.length_append, List.length_take, List.length_drop]
          omega
        obtain ⟨sched2, hrec⟩ := ih (acc ++ (s :: srest).take k) sched.tail
          ((s :: srest).drop k) hlen2 hle2
        refine ⟨sched2, ?_⟩
        rw [hrec]
        have hlen_acc : (acc ++ (s :: srest).take k).length = acc.length + k := by
          rw [List.length_append, List.length_take]
          omega
        rw [hlen_acc]
        have h1 : n - (acc.length + k) = n - acc.length - k := by omega
        rw [h1]
        have htake : (s :: srest).take k ++ ((s :: srest).drop k).take (n - acc.length - k) =
            (s :: srest).take (n - acc.length) := by
          rw [← List.take_add]
          congr 1
          omega
        have hdrop : ((s :: srest).drop k).drop (n - acc.length - k) =
            (s :: srest).drop (n - acc.length) := by
          rw [List.drop_drop]
          congr 1
          omega
        rw [List.append_assoc, htake, hdrop]

/-! ### Request-builder characterizations -/

/-- A mutating command without a salt fails validation. -/
theorem buildRequest_no_salt (aesEnc : List Nat → List Nat → List Nat) (now : Int)
    (account pw cmd : String) (param : Option Json) (ts : Option Int)
    (h : strStartsWith cmd "set." = true) :
    buildRequest aesEnc now account pw cmd param none ts =
      .error "Salt is required for set.x commands. Obtain it via get.device.info." := by
  simp [buildRequest, h]

/-- A non-mutating command builds the bare request, with the parameter
carried verbatim when present. -/
theorem buildRequest_nonset (aesEnc : List Nat → List Nat → List Nat) (now : Int)
    (account pw cmd : String) (param : Option Json) (salt : Option String) (ts : Option Int)
    (h : strStartsWith cmd "set." = false) :
    buildRequest aesEnc now account pw cmd param salt ts =
      .ok ⟨cmd, none, none, none, param⟩ := by
  cases param <;> simp [buildRequest, h]

/-- A mutating, non-encrypted command with a salt builds the
authenticated request with the parameter carried verbatim. -/
theorem buildRequest_set_nonenc (aesEnc : List Nat → List Nat → List Nat) (now : Int)
    (account pw cmd : String) (param : Option Json) (s : String) (ts : Option Int)
    (h : strStartsWith cmd "set." = true) (henc : cmd ∉ _ENCRYPTED_COMMANDS) :
    buildRequest aesEnc now account pw cmd param (some s) ts =
      .ok ⟨cmd, some (ts.getD now), some (generate_token cmd pw s (ts.getD now)).1,
        some account, param⟩ := by
  cases ts <;> cases param <;> simp [buildRequest, h, henc]

/-- An encrypted command without a parameter fails validation. -/
theorem buildRequest_enc_noparam (aesEnc : List Nat → List Nat → List Nat) (now : Int)
    (account pw cmd : String) (s : String) (ts : Option Int)
    (h : strStartsWith cmd "set." = true) (henc : cmd ∈ _ENCRYPTED_COMMANDS) :
    buildRequest aesEnc now account pw cmd none (some s) ts =
      .error ("Command " ++ cmd ++ " requires param.") := by
  cases ts <;> simp [buildRequest, h, henc]

/-- An encrypted command with a parameter builds the authenticated
request carrying the encrypted base64 parameter. -/
theorem buildRequest_enc_param (aesEnc : List Nat → List Nat → List Nat) (now : Int)
    (account pw cmd : String) (p : Json) (s : String) (ts : Option Int)
    (h : strStartsWith cmd "set." = true) (henc : cmd ∈ _ENCRYPTED_COMMANDS) :
    buildRequest aesEnc now account pw cmd (some p) (some s) ts =
      .ok ⟨cmd, some (ts.getD now), some (generate_token cmd pw s (ts.getD now)).1,
        some account,
        some (.str (encrypt_param_aes_ecb_base64
          (aesEnc (generate_token cmd pw s (ts.getD now)).2) p))⟩ := by
  cases ts <;> simp [buildRequest, h, henc]

/-- Both encrypted commands are mutating. -/
theorem encrypted_is_set (cmd : String) (h : cmd ∈ _ENCRYPTED_COMMANDS) :
    strStartsWith cmd "set." = true := by
  simp [_ENCRYPTED_COMMANDS] at h
  rcases h with h | h <;> subst h <;> decide


/-! ### Claims about the request builder and the call wrapper -/

/--
C4: in every request built by `call_whatsminer`, the `ts`, `token` and
`account` keys are present if and only if the command starts with
`"set."`; and a non-mutating command with no parameter builds the request
containing only `cmd`.
-/
theorem C4_auth_fields_iff_set (aesEnc : List Nat → List Nat → List Nat) (now : Int)
    (account pw cmd : String) (param : Option Json) (salt : Option String) (ts : Option Int)
    (req : Request)
    (hok : buildRequest aesEnc now account pw cmd param salt ts = .ok req) :
    ((req.ts.isSome ∧ req.token.isSome ∧ req.account.isSome) ↔
      strStartsWith cmd "set." = true) ∧
    (strStartsWith cmd "set." = false → param = none →
      req = ⟨cmd, none, none, none, none⟩) := by
  by_cases hset : strStartsWith cmd "set." = true
  · cases salt with
    | none =>
      rw [buildRequest_no_salt aesEnc now account pw cmd param ts hset] at hok
      exact absurd hok (by simp)
    | some s =>
      by_cases henc : cmd ∈ _ENCRYPTED_COMMANDS
      · cases param with
        | none =>
          rw [buildRequest_enc_noparam aesEnc now account pw cmd s ts hset henc] at hok
          exact absurd hok (by simp)
        | some p =>
          rw [buildRequest_enc_param aesEnc now account pw cmd p s ts hset henc] at hok
          obtain rfl := Except.ok.inj hok
          refine ⟨by simp [hset], ?_⟩
          intro hfalse
          rw [hset] at hfalse
          cases hfalse
      · rw [buildRequest_set_nonenc aesEnc now account pw cmd param s ts hset henc] at hok
        obtain rfl := Except.ok.inj hok
        refine ⟨by simp [hset], ?_⟩
        intro hfalse
        rw [hset] at hfalse
        cases hfalse
  · have hset' : strStartsWith cmd "set." = false := by
      cases hb : strStartsWith cmd "set."
      · rfl
      · exact absurd hb hset
    rw [buildRequest_nonset aesEnc now account pw cmd param salt ts hset'] at hok
    obtain rfl := Except.ok.inj hok
    refine ⟨by simp [hset'], ?_⟩
    intro _ hp
    subst hp
    rfl

/--
C5: for a mutating command, building without a salt fails with the
salt-required validation error whatever `ts` is; for a non-mutating
command no salt is required — the build succeeds with no salt.
-/
theorem C5_salt_mandatory (aesEnc : List Nat → List Nat → List Nat) (now : Int)
    (account pw cmd : String) (param : Option Json) (ts : Option Int)
    (t : String → Nat → Request → Nat → Json) (host : String) (port timeout : Nat) :
    (strStartsWith cmd "set." = true →
      buildRequest aesEnc now account pw cmd param none ts =
        .error "Salt is required for set.x commands. Obtain it via get.device.info." ∧
      call_whatsminer aesEnc now t host port account pw cmd param none ts timeout =
        .error "Salt is required for set.x commands. Obtain it via get.device.info.") ∧
    (strStartsWith cmd "set." = false →
      buildRequest aesEnc now account pw cmd param none ts =
        .ok ⟨cmd, none, none, none, param⟩) :=
  ⟨fun h => ⟨buildRequest_no_salt aesEnc now account pw cmd param ts h,
    by simp [call_whatsminer, buildRequest_no_salt aesEnc now account pw cmd param ts h,
      Except.map]⟩,
   fun h => buildRequest_nonset aesEnc now account pw cmd param none ts h⟩

/--
C6: for a mutating command called with a salt, the built request's `ts`
is the caller-supplied timestamp when given and `now` (the current unix
time, `now_ts_int()`) otherwise, and its `token` is the token component
of `generate_token (cmd, password, salt, effective ts)`.
-/
theorem C6_effective_ts_and_token (aesEnc : List Nat → List Nat → List Nat) (now : Int)
    (account pw cmd : String) (param : Option Json) (s : String) (ts : Option Int)
    (req : Request)
    (hset : strStartsWith cmd "set." = true)
    (hok : buildRequest aesEnc now account pw cmd param (some s) ts = .ok req) :
    req.ts = some (ts.getD now) ∧
    req.token = some (generate_token cmd pw s (ts.getD now)).1 := by
  by_cases henc : cmd ∈ _ENCRYPTED_COMMANDS
  · cases param with
    | none =>
      rw [buildRequest_enc_noparam aesEnc now account pw cmd s ts hset henc] at hok
      exact absurd hok (by simp)
    | some p =>
      rw [buildRequest_enc_param aesEnc now account pw cmd p s ts hset henc] at hok
      obtain rfl := Except.ok.inj hok
      exact ⟨rfl, rfl⟩
  · rw [buildRequest_set_nonenc aesEnc now account pw cmd param s ts hset henc] at hok
    obtain rfl := Except.ok.inj hok
    exact ⟨rfl, rfl⟩

/--
C7: for a command in the encrypted set called with a salt: a missing
parameter fails validation, and a present parameter is carried as a
base64 string whose AES-ECB decryption under the derived key, after
stripping PKCS#7, is the canonical JSON of the parameter, which parses
back to it; every mutating command outside the set carries the parameter
verbatim.  The AES primitive is any keyed block-cipher pair that is
length-preserving, byte-valued and inverse on 16-byte blocks under
32-byte keys.
-/
theorem C7_encrypted_param_roundtrip
    (aesEnc aesDec : List Nat → List Nat → List Nat) (now : Int)
    (account pw s : String) (ts : Option Int) (cmd : String)
    (hcmd : cmd ∈ _ENCRYPTED_COMMANDS)
    (hlen : ∀ key b, key.length = 32 → b.length = 16 → (∀ x ∈ b, x < 256) →
      (aesEnc key b).length = 16)
    (hbytes : ∀ key b, key.length = 32 → b.length = 16 → (∀ x ∈ b, x < 256) →
      ∀ x ∈ aesEnc key b, x < 256)
    (hdec : ∀ key b, key.length = 32 → b.length = 16 → (∀ x ∈ b, x < 256) →
      aesDec key (aesEnc key b) = b) :
    (buildRequest aesEnc now account pw cmd none (some s) ts =
      .error ("Command " ++ cmd ++ " requires param.")) ∧
    (∀ p req, buildRequest aesEnc now account pw cmd (some p) (some s) ts = .ok req →
      ∃ enc_b64 ct,
        req.param = some (.str enc_b64) ∧
        base64Decode enc_b64 = some ct ∧
        pkcs7Unpad (ecbApply (aesDec (generate_token cmd pw s (ts.getD now)).2) ct) =
          some (utf8Encode (dumps p)) ∧
        parseJson (dumps p) = some p) ∧
    (∀ cmd2 p req, strStartsWith cmd2 "set." = true → cmd2 ∉ _ENCRYPTED_COMMANDS →
      buildRequest aesEnc now account pw cmd2 (some p) (some s) ts = .ok req →
      req.param = some p) := by
  have hset := encrypted_is_set cmd hcmd
  refine ⟨buildRequest_enc_noparam aesEnc now account pw cmd s ts hset hcmd, ?_, ?_⟩
  · intro p req hok
    rw [buildRequest_enc_param aesEnc now account pw cmd p s ts hset hcmd] at hok
    obtain rfl := Except.ok.inj hok
    set key := (generate_token cmd pw s (ts.getD now)).2 with hkeydef
    have hkey : key.length = 32 := by
      rw [hkeydef]
      show (sha256_digest_bytes _).length = 32
      exact sha256_length _
    have hdata := utf8Encode_bytes_lt (dumps p)
    have hpadlen := pkcs7_pad_length (utf8Encode (dumps p))
    have hpadbytes := pkcs7_pad_bytes_lt (utf8Encode (dumps p)) hdata
    refine ⟨_, ecbApply (aesEnc key) (pkcs7_pad (utf8Encode (dumps p)) 16), rfl, ?_, ?_,
      parseJson_dumps p⟩
    · show b64DecodeChars (b64EncodeBytes _) = _
      exact b64DecodeChars_encode _
        (ecbApply_bytes_lt (aesEnc key) _ hpadlen hpadbytes
          (fun b hb hx => hbytes key b hkey hb hx))
    · rw [ecbApply_roundtrip (aesEnc key) (aesDec key) _ hpadlen hpadbytes
        (fun b hb hx => hlen key b hkey hb hx) (fun b hb hx => hdec key b hkey hb hx)]
      exact pkcs7Unpad_pad _
  · intro cmd2 p req hset2 henc2 hok
    rw [buildRequest_set_nonenc aesEnc now account pw cmd2 (some p) s ts hset2 henc2] at hok
    obtain rfl := Except.ok.inj hok
    rfl

/--
C10: when validation fails, `call_whatsminer` fails before any network
activity: the result does not depend on the transport at all, and is the
validation error itself.
-/
theorem C10_validation_before_network
    (aesEnc : List Nat → List Nat → List Nat) (now : Int)
    (t1 t2 : String → Nat → Request → Nat → Json)
    (host : String) (port : Nat) (account pw cmd : String)
    (param : Option Json) (salt : Option String) (ts : Option Int) (timeout : Nat)
    (herr : ∃ e, buildRequest aesEnc now account pw cmd param salt ts = .error e) :
    call_whatsminer aesEnc now t1 host port account pw cmd param salt ts timeout =
      call_whatsminer aesEnc now t2 host port account pw cmd param salt ts timeout ∧
    ∃ e, call_whatsminer aesEnc now t1 host port account pw cmd param salt ts timeout =
      .error e := by
  obtain ⟨e, he⟩ := herr
  exact ⟨by simp [call_whatsminer, he, Except.map], ⟨e, by simp [call_whatsminer, he, Except.map]⟩⟩

/-- Reading exactly the length of a prefix consumes exactly it. -/
theorem recvall_append_exact (sched pre post : List Nat) (n : Nat) (hpre : pre.length = n) :
    ∃ sched2, recvall sched (pre ++ post) n = some (pre, post, sched2) := by
  subst hpre
  obtain ⟨sched2, h⟩ := recvallAux_exact pre.length (pre ++ post).length [] sched (pre ++ post)
    (le_refl _) (by simp)
  refine ⟨sched2, ?_⟩
  unfold recvall
  rw [h]
  simp [List.take_left, List.drop_left]

/-- Reading exactly the whole stream consumes it all. -/
theorem recvall_exact_all (sched stream : List Nat) (n : Nat) (h : stream.length = n) :
    ∃ sched2, recvall sched stream n = some (stream, [], sched2) := by
  subst h
  obtain ⟨sched2, hr⟩ := recvallAux_exact stream.length stream.length [] sched stream
    (le_refl _) (by simp)
  refine ⟨sched2, ?_⟩
  unfold recvall
  rw [hr]
  simp

/--
C8: a response frame declaring length zero yields the empty response
object without reading any payload (the result holds whatever bytes, if
any, follow the header); a payload that does not parse as JSON yields an
object with only the key `raw` holding the UTF-8-lossy decoded text,
with no error raised.
-/
theorem C8_zero_length_and_raw_fallback (robj : Json) (sched stream' payload : List Nat)
    (L : Nat) :
    ((send_request_and_receive robj sched (leBytes4 0 ++ stream')).2 = .ok (.obj [])) ∧
    (0 < L → L < 4294967296 → payload.length = L →
      parseJson ⟨utf8DecodeIgnore payload⟩ = none →
      (send_request_and_receive robj sched (leBytes4 L ++ payload)).2 =
        .ok (.obj [("raw", Json.str ⟨utf8DecodeIgnore payload⟩)])) := by
  constructor
  · show receiveResponse sched (leBytes4 0 ++ stream') = .ok (.obj [])
    obtain ⟨s2, h4⟩ := recvall_append_exact sched (leBytes4 0) stream' 4 (by simp [leBytes4])
    unfold receiveResponse
    rw [h4]
    simp [leBytes4]
  · intro hL0 hL32 hlenp hparse
    show receiveResponse sched (leBytes4 L ++ payload) = _
    obtain ⟨s2, h4⟩ := recvall_append_exact sched (leBytes4 L) payload 4 (by simp [leBytes4])
    obtain ⟨s3, h5⟩ := recvall_exact_all s2 payload
      (L % 256 + 256 * (L / 256 % 256) + 65536 * (L / 65536 % 256) +
        16777216 * (L / 16777216 % 256)) (by omega)
    unfold receiveResponse
    rw [h4]
    simp only [leBytes4, List.length_cons, List.length_nil, List.getD_cons_zero,
      List.getD_cons_succ]
    rw [if_neg (by omega), if_neg (by omega)]
    rw [h5]
    simp [hparse]

/--
C9: `recvall` succeeds exactly when enough bytes arrive before EOF, and
then returns exactly the first `n` bytes; a short read on the 4-byte
length header or on the declared payload makes the receive fail with a
connection error rather than return a partial response.
-/
theorem C9_exact_reads_and_short_read_errors (robj : Json) (sched stream : List Nat) (n : Nat)
    (L : Nat) (payload : List Nat) :
    ((∃ r, recvall sched stream n = some r) ↔ n ≤ stream.length) ∧
    (∀ out stream2 sched2, recvall sched stream n = some (out, stream2, sched2) →
      out.length = n ∧ out = stream.take n ∧ stream2 = stream.drop n) ∧
    (stream.length < 4 → (send_request_and_receive robj sched stream).2 =
      .error "Failed to read response length") ∧
    (L < 4294967296 → 0 < L → payload.length < L →
      (send_request_and_receive robj sched (leBytes4 L ++ payload)).2 =
        .error "Failed to read full response") := by
  refine ⟨⟨?_, ?_⟩, ?_, ?_, ?_⟩
  · rintro ⟨r, hr⟩
    by_contra hlt
    push_neg at hlt
    have hnone := recvallAux_short n stream.length [] sched stream (le_refl _)
      (by simp; omega)
    unfold recvall at hr
    rw [hnone] at hr
    cases hr
  · intro hle
    obtain ⟨s2, h⟩ := recvallAux_exact n stream.length [] sched stream (le_refl _)
      (by simp [hle])
    exact ⟨_, h⟩
  · intro out stream2 sched2 hr
    have hle : n ≤ stream.length := by
      by_contra hlt
      push_neg at hlt
      have hnone := recvallAux_short n stream.length [] sched stream (le_refl _)
        (by simp; omega)
      unfold recvall at hr
      rw [hnone] at hr
      cases hr
    obtain ⟨s2, h⟩ := recvallAux_exact n stream.length [] sched stream (le_refl _)
      (by simp [hle])
    unfold recvall at hr
    rw [h] at hr
    simp only [Option.some.injEq, Prod.mk.injEq, List.nil_append, List.length_nil,
      Nat.sub_zero] at hr
    obtain ⟨ho, hs, _⟩ := hr
    refine ⟨?_, ho.symm, hs.symm⟩
    rw [← ho]
    rw [List.length_take]
    omega
  · intro h4
    show receiveResponse sched stream = _
    have hnone := recvallAux_short 4 stream.length [] sched stream (le_refl _)
      (by simp; omega)
    unfold receiveResponse recvall
    rw [hnone]
  · intro hL32 hL0 hshort
    show receiveResponse sched (leBytes4 L ++ payload) = _
    obtain ⟨s2, h4⟩ := recvall_append_exact sched (leBytes4 L) payload 4 (by simp [leBytes4])
    have hnone := recvallAux_short
      (L % 256 + 256 * (L / 256 % 256) + 65536 * (L / 65536 % 256) +
        16777216 * (L / 16777216 % 256)) payload.length [] s2 payload (le_refl _)
      (by simp; omega)
    unfold receiveResponse
    rw [h4]
    simp only [leBytes4, List.length_cons, List.length_nil, List.getD_cons_zero,
      List.getD_cons_succ]
    rw [if_neg (by omega), if_neg (by omega)]
    unfold recvall
    rw [hnone]

/-! ### Concrete witnesses -/

/-- Witness for C3 at the identity block cipher, the all-zero 32-byte key
and a small pools object. -/
theorem C3_encrypt_param_roundtrip_witness :
    (List.replicate 32 0 : List Nat).length = 32 ∧
    (∃ ct, base64Decode (encrypt_param_aes_ecb_base64
        ((fun (_ b : List Nat) => b) (List.replicate 32 0))
        (Json.obj [("pools", Json.arr [])])) = some ct ∧
      pkcs7Unpad (ecbApply ((fun (_ b : List Nat) => b) (List.replicate 32 0)) ct) =
        some (utf8Encode (dumps (Json.obj [("pools", Json.arr [])]))) ∧
      parseJson (dumps (Json.obj [("pools", Json.arr [])])) =
        some (Json.obj [("pools", Json.arr [])])) :=
  ⟨by simp,
   C3_encrypt_param_roundtrip (fun _ b => b) (fun _ b => b) (List.replicate 32 0)
    (Json.obj [("pools", Json.arr [])]) (by simp)
    (fun b hb _ => hb) (fun b _ hx => hx) (fun b _ _ => rfl)⟩

/-- Witness for C4 at a plain `get.version` request. -/
theorem C4_auth_fields_iff_set_witness :
    buildRequest (fun _ b => b) 0 "super" "pw" "get.version" none none none =
      .ok ⟨"get.version", none, none, none, none⟩ ∧
    ((((⟨"get.version", none, none, none, none⟩ : Request).ts.isSome ∧
        (⟨"get.version", none, none, none, none⟩ : Request).token.isSome ∧
        (⟨"get.version", none, none, none, none⟩ : Request).account.isSome) ↔
      strStartsWith "get.version" "set." = true) ∧
     (strStartsWith "get.version" "set." = false → (none : Option Json) = none →
      (⟨"get.version", none, none, none, none⟩ : Request) =
        ⟨"get.version", none, none, none, none⟩)) :=
  ⟨rfl, C4_auth_fields_iff_set (fun _ b => b) 0 "super" "pw" "get.version" none none none
    ⟨"get.version", none, none, none, none⟩ rfl⟩

/-- Witness for C5 at `set.miner.power` with an explicit timestamp. -/
theorem C5_salt_mandatory_witness :
    strStartsWith "set.miner.power" "set." = true ∧
    buildRequest (fun _ b => b) 0 "super" "pw" "set.miner.power" none none (some 5) =
      .error "Salt is required for set.x commands. Obtain it via get.device.info." :=
  ⟨rfl, ((C5_salt_mandatory (fun _ b => b) 0 "super" "pw" "set.miner.power" none (some 5)
    (fun _ _ _ _ => Json.null) "h" 1 1).1 rfl).1⟩

/-- Witness for C6 at `set.miner.power` with a salt and explicit
timestamp. -/
theorem C6_effective_ts_and_token_witness :
    strStartsWith "set.miner.power" "set." = true ∧
    ((⟨"set.miner.power", some 1700000000,
        some (generate_token "set.miner.power" "pw" "salt123" 1700000000).1,
        some "super", none⟩ : Request).ts = some 1700000000 ∧
      (⟨"set.miner.power", some 1700000000,
        some (generate_token "set.miner.power" "pw" "salt123" 1700000000).1,
        some "super", none⟩ : Request).token =
        some (generate_token "set.miner.power" "pw" "salt123" 1700000000).1) :=
  ⟨rfl, C6_effective_ts_and_token (fun _ b => b) 0 "super" "pw" "set.miner.power" none
    "salt123" (some 1700000000)
    ⟨"set.miner.power", some 1700000000,
      some (generate_token "set.miner.power" "pw" "salt123" 1700000000).1,
      some "super", none⟩
    rfl
    (buildRequest_set_nonenc (fun _ b => b) 0 "super" "pw" "set.miner.power" none "salt123"
      (some 1700000000) rfl (by decide))⟩

/-- Witness for C7 at `set.miner.pools` with a salt and no parameter. -/
theorem C7_encrypted_param_roundtrip_witness :
    ("set.miner.pools" ∈ _ENCRYPTED_COMMANDS) ∧
    buildRequest (fun _ b => b) 0 "super" "pw" "set.miner.pools" none (some "salty") (some 5) =
      .error ("Command " ++ "set.miner.pools" ++ " requires param.") :=
  ⟨by decide,
   (C7_encrypted_param_roundtrip (fun _ b => b) (fun _ b => b) 0 "super" "pw" "salty"
     (some 5) "set.miner.pools" (by decide)
     (fun _ b _ hb _ => hb) (fun _ b _ _ hx => hx) (fun _ b _ _ _ => rfl)).1⟩

/-- Witness for C8 at a 3-byte non-JSON payload. -/
theorem C8_zero_length_and_raw_fallback_witness :
    ((0 : Nat) < 3 ∧ (3 : Nat) < 4294967296 ∧ ([122, 97, 112] : List Nat).length = 3 ∧
      parseJson ⟨utf8DecodeIgnore [122, 97, 112]⟩ = none) ∧
    (send_request_and_receive Json.null [] (leBytes4 3 ++ [122, 97, 112])).2 =
      .ok (.obj [("raw", Json.str ⟨utf8DecodeIgnore [122, 97, 112]⟩)]) :=
  ⟨⟨by decide, by decide, by decide, rfl⟩,
   (C8_zero_length_and_raw_fallback Json.null [] [] [122, 97, 112] 3).2
     (by decide) (by decide) (by decide) rfl⟩

/-- Witness for C9 at a 2-byte stream, too short for the header. -/
theorem C9_exact_reads_and_short_read_errors_witness :
    (([1, 2] : List Nat).length < 4) ∧
    (send_request_and_receive Json.null [] [1, 2]).2 =
      .error "Failed to read response length" :=
  ⟨by decide,
   (C9_exact_reads_and_short_read_errors Json.null [] [1, 2] 2 3 [9]).2.2.1 (by decide)⟩

/-- Witness for C10 at a saltless `set.miner.power` call. -/
theorem C10_validation_before_network_witness :
    (∃ e, buildRequest (fun _ b => b) 0 "super" "pw" "set.miner.power" none none none =
      .error e) ∧
    (∃ e, call_whatsminer (fun _ b => b) 0 (fun _ _ _ _ => Json.null) "h" 1 "super" "pw"
      "set.miner.power" none none none 1 = .error e) :=
  ⟨⟨"Salt is required for set.x commands. Obtain it via get.device.info.", rfl⟩,
   (C10_validation_before_network (fun _ b => b) 0 (fun _ _ _ _ => Json.null)
     (fun _ _ _ _ => Json.null) "h" 1 "super" "pw" "set.miner.power" none none none 1
     ⟨"Salt is required for set.x commands. Obtain it via get.device.info.", rfl⟩).2⟩
